import Mathlib

/-!
# Verification of `simulation.py` (BitTorrent swarm peer-ordering simulation)

A shallow embedding of the connection-formation core of the simulation:
the pairwise priority function (SHA-1 over the decimal concatenation of the
canonically ordered pair), the per-tick admission engine, the connection
scheduler, peer discovery, the startup-ramp sampling, and the percentile
helper.  Machine integers do not occur (Python ints are unbounded); the
32-bit words inside SHA-1 are modelled as `Nat` reduced `% 2^32`.
-/

set_option maxRecDepth 1000000
set_option maxHeartbeats 40000000

namespace Swarm

/-! ## SHA-1 over byte lists, with 32-bit words as `Nat % 2^32` -/

/-- Rotate a 32-bit word (a `Nat < 2^32`) left by `s` bits. -/
def rotl (s x : Nat) : Nat :=
  ((x <<< s) % 4294967296) ||| (x >>> (32 - s))

/-- Pack a byte list into big-endian 32-bit words (4 bytes per word). -/
def toWords : List Nat → List Nat
  | b0 :: b1 :: b2 :: b3 :: t =>
    ((((b0 <<< 8) ||| b1) <<< 8 ||| b2) <<< 8 ||| b3) :: toWords t
  | _ => []

/-- `k` big-endian bytes of `n`. -/
def beBytes : Nat → Nat → List Nat
  | 0, _ => []
  | k + 1, n => ((n >>> (8 * k)) % 256) :: beBytes k n

/-- SHA-1 message padding: append `0x80`, zero bytes up to 56 mod 64, and
the 8-byte big-endian bit length. -/
def sha1Pad (msg : List Nat) : List Nat :=
  msg ++ 0x80 :: (List.replicate ((119 - msg.length % 64) % 64) 0 ++ beBytes 8 (msg.length * 8))

/-- Split a word list into 16-word blocks (fuel-based structural recursion so
that the kernel can evaluate it; the fuel `l.length` always suffices). -/
def chunks16Aux : Nat → List Nat → List (List Nat)
  | 0, _ => []
  | _, [] => []
  | fuel + 1, l@(_ :: _) => l.take 16 :: chunks16Aux fuel (l.drop 16)

/-- Split a word list into 16-word blocks. -/
def chunks16 (l : List Nat) : List (List Nat) :=
  chunks16Aux l.length l

/-- Extend the (reversed) message schedule by `k` further words:
`w[t] = rotl1 (w[t-3] xor w[t-8] xor w[t-14] xor w[t-16])`. -/
def extendW : Nat → List Nat → List Nat
  | 0, r => r
  | k + 1, r =>
    extendW k ((rotl 1 ((((r.getD 2 0).xor (r.getD 7 0)).xor (r.getD 13 0)).xor (r.getD 15 0))) :: r)

/-- The 80 SHA-1 rounds, folding over the message schedule with round index `t`. -/
def sha1Rounds : List Nat → Nat → Nat × Nat × Nat × Nat × Nat → Nat × Nat × Nat × Nat × Nat
  | [], _, st => st
  | wt :: rest, t, (a, b, c, d, e) =>
    let f :=
      if t < 20 then (b.land c) ||| ((b.xor 4294967295).land d)
      else if t < 40 then (b.xor c).xor d
      else if t < 60 then ((b.land c) ||| (b.land d)) ||| (c.land d)
      else (b.xor c).xor d
    let k :=
      if t < 20 then 0x5A827999
      else if t < 40 then 0x6ED9EBA1
      else if t < 60 then 0x8F1BBCDC
      else 0xCA62C1D6
    let temp := (rotl 5 a + f + e + k + wt) % 4294967296
    sha1Rounds rest (t + 1) (temp, a, rotl 30 b, c, d)

/-- Process one 16-word block, updating the five chaining values. -/
def sha1Block (h : Nat × Nat × Nat × Nat × Nat) (block : List Nat) :
    Nat × Nat × Nat × Nat × Nat :=
  let (h0, h1, h2, h3, h4) := h
  let w := (extendW 64 block.reverse).reverse
  let (a, b, c, d, e) := sha1Rounds w 0 (h0, h1, h2, h3, h4)
  ((h0 + a) % 4294967296, (h1 + b) % 4294967296, (h2 + c) % 4294967296,
   (h3 + d) % 4294967296, (h4 + e) % 4294967296)

/-- SHA-1 of a byte list, returned as the 160-bit digest value.  Comparing
these `Nat`s is equivalent to Python's lexicographic comparison of the
40-character `hexdigest()` strings, since those are zero-padded to equal
length over the value-ordered alphabet `0-9a-f`. -/
def sha1Nat (msg : List Nat) : Nat :=
  let blocks := chunks16 (toWords (sha1Pad msg))
  let (h0, h1, h2, h3, h4) :=
    blocks.foldl sha1Block (0x67452301, 0xEFCDAB89, 0x98BADCFE, 0x10325476, 0xC3D2E1F0)
  (((h0 <<< 32 ||| h1) <<< 32 ||| h2) <<< 32 ||| h3) <<< 32 ||| h4

/-- ASCII decimal digits, by fuel (any fuel above the digit count works). -/
def decReprAux : Nat → Nat → List Nat
  | 0, _ => []
  | fuel + 1, n => if n < 10 then [48 + n] else decReprAux fuel (n / 10) ++ [48 + n % 10]

/-- ASCII bytes of the decimal representation of `n` (Python 2 `'%d' % n`). -/
def decRepr (n : Nat) : List Nat :=
  decReprAux (n + 1) n

/-! ## The priority function `prio` (simulation.py lines 130-142)

The source canonicalizes the pair (swapping so the smaller id comes first),
hashes `'%d%d' % (n1, n2)` with SHA-1 and compares the hex digests with
Python string `<`.  We return the digest as a `Nat`; see `sha1Nat` for why
the orders agree.  The memoization dict `prio_cache` is modelled by
`prioC` below; `prioC_spec` shows its result always equals this pure
function. -/

/-- The byte string fed to the hash: decimal digits of the canonically
ordered pair, concatenated with no separator (`'%d%d' % (n1, n2)`). -/
def prioInput (n1 n2 : Nat) : List Nat :=
  if n1 > n2 then decRepr n2 ++ decRepr n1 else decRepr n1 ++ decRepr n2

/-- The global pairwise priority (cache-free form). -/
def prio (n1 n2 : Nat) : Nat :=
  sha1Nat (prioInput n1 n2)

/-- The memoization cache `prio_cache`: a map from canonical pairs to
priorities, modelled as an association list. -/
abbrev PrioCache := List ((Nat × Nat) × Nat)

/-- Association-list lookup in the priority cache. -/
def pcLookup : PrioCache → Nat × Nat → Option Nat
  | [], _ => none
  | (q, v) :: t, p => if p = q then some v else pcLookup t p

/-- `prio` exactly as in the source: canonicalize, consult the cache,
otherwise hash `'%d%d' % (n1, n2)` and memoize. -/
def prioC (c : PrioCache) (n1 n2 : Nat) : Nat × PrioCache :=
  let p := if n1 > n2 then (n2, n1) else (n1, n2)
  match pcLookup c p with
  | some v => (v, c)
  | none =>
    let v := sha1Nat (decRepr p.1 ++ decRepr p.2)
    (v, (p, v) :: c)

/-- Every cache entry holds the pure priority of its key pair. -/
def CacheValid (c : PrioCache) : Prop :=
  ∀ p v, (p, v) ∈ c → v = prio p.1 p.2

/-- Python's `min(l, key = fun x => prio n x)` (first minimum wins), with the
cache threaded through the key calls in iteration order: auxiliary loop. -/
def minByPrioAux (n : Nat) : List Nat → Nat → Nat → PrioCache → Nat × PrioCache
  | [], best, _, c => (best, c)
  | x :: t, best, bk, c =>
    let (kx, c') := prioC c n x
    if kx < bk then minByPrioAux n t x kx c' else minByPrioAux n t best bk c'

/-- Python's `min(l, key = fun x => prio n x)` (first minimum wins). -/
def minByPrio (n : Nat) (l : List Nat) (c : PrioCache) : Nat × PrioCache :=
  match l with
  | [] => (0, c)
  | h :: t =>
    let (kh, c') := prioC c n h
    minByPrioAux n t h kh c'

/-- Python's `max(l, key = fun x => prio n x)` (first maximum wins): loop. -/
def maxByPrioAux (n : Nat) : List Nat → Nat → Nat → PrioCache → Nat × PrioCache
  | [], best, _, c => (best, c)
  | x :: t, best, bk, c =>
    let (kx, c') := prioC c n x
    if kx > bk then maxByPrioAux n t x kx c' else maxByPrioAux n t best bk c'

/-- Python's `max(l, key = fun x => prio n x)` (first maximum wins). -/
def maxByPrio (n : Nat) (l : List Nat) (c : PrioCache) : Nat × PrioCache :=
  match l with
  | [] => (0, c)
  | h :: t =>
    let (kh, c') := prioC c n h
    maxByPrioAux n t h kh c'

/-! ## Simulation state

The source keeps its state in global dicts keyed by peer id (with lazy
initialization to `[]`); we model each dict as a total function
`Nat → List Nat` whose default value is `[]`, which coincides with lazy
initialization on every access the program performs.  `peers_in_swarm`
is a Python set of consecutive small ints, iterated in ascending order
(CPython iterates small-int sets in value order, which is also the order
the spec fixes); we model it as the ascending list of joined peers.
The per-tick counter lists grow by one `0` at the start of `step` and
are incremented at their last position (`index = tick`). -/

/-- Settings that affect the core simulation semantics. -/
structure Settings where
  maxPeers : Nat
  swarmSize : Nat
  peersFromTracker : Nat
  halfOpenLimit : Nat
  usePeerOrdering : Bool
  useGlobalKnowledge : Bool
deriving DecidableEq

/-- The mutable global state of the simulation. -/
structure SimState where
  swarm : List Nat
  est : Nat → List Nat
  att : Nat → List Nat
  known : Nat → List Nat
  retry : Nat → List Nat
  joinTime : Nat → Nat
  tick : Nat
  attemptsPerTick : List Nat
  rejectsPerTick : List Nat
  replacementsPerTick : List Nat
  startup : List (List Nat)
  cache : PrioCache

/-- The initial (empty) global state. -/
def initState : SimState :=
  { swarm := [], est := fun _ => [], att := fun _ => [], known := fun _ => [],
    retry := fun _ => [], joinTime := fun _ => 0, tick := 0,
    attemptsPerTick := [], rejectsPerTick := [], replacementsPerTick := [],
    startup := [], cache := [] }

/-- Pointwise update of a total map (a Python dict assignment `m[p] = v`). -/
def fupd {α : Type} (m : Nat → α) (p : Nat) (v : α) : Nat → α :=
  fun q => if q = p then v else m q

/-- Increment the last element of a list (`counter[tick] += 1`, since the
counter lists always have length `tick + 1` while a tick is running). -/
def incLast : List Nat → List Nat
  | [] => []
  | [x] => [x + 1]
  | x :: t => x :: incLast t

/-- Grow a list of buckets to length at least `k` by appending `[]`s
(`while len(startup) <= node_time: startup.append([])`). -/
def growTo (k : Nat) (l : List (List Nat)) : List (List Nat) :=
  l ++ List.replicate (k - l.length) []

/-- Append sample `v` to bucket `b` (`startup[node_time].append(...)`). -/
def recordSample (b v : Nat) (l : List (List Nat)) : List (List Nat) :=
  let g := growTo (b + 1) l
  g.set b (g.getD b [] ++ [v])

/-! ## The admission engine (tick resolver), simulation.py lines 210-274 -/

/-- Lines 218-222: the dialed peer `a` learns about the dialer `n` unless it
already knows of it through any of its four relation sets. -/
def learnStep (n a : Nat) (st : SimState) : SimState :=
  if n ∈ st.known a ∨ n ∈ st.retry a ∨ n ∈ st.est a ∨ n ∈ st.att a then st
  else { st with known := fupd st.known a (st.known a ++ [n]) }

/-- Add the symmetric edge `(x, y)`: `m[x].append(y)` then `m[y].append(x)`. -/
def addEdge (x y : Nat) (m : Nat → List Nat) : Nat → List Nat :=
  let m1 := fupd m x (m x ++ [y])
  fupd m1 y (m1 y ++ [x])

/-- Remove the symmetric edge `(x, y)`: `m[x].remove(y)` then `m[y].remove(x)`. -/
def removeEdge (x y : Nat) (m : Nat → List Nat) : Nat → List Nat :=
  let m1 := fupd m x ((m x).erase y)
  fupd m1 y ((m1 y).erase x)

/-- Lines 268-272: on an established outcome, remove each endpoint from the
other's known set (`remove` wrapped in `try/except`, i.e. remove-if-present). -/
def cleanupKnown (n a : Nat) (st : SimState) : SimState :=
  let k1 := fupd st.known a ((st.known a).erase n)
  { st with known := fupd k1 n ((k1 n).erase a) }

/-- Line 274: the attempt `(n → a)` is removed unconditionally. -/
def removeAttempt (n a : Nat) (st : SimState) : SimState :=
  { st with att := fupd st.att n ((st.att n).erase a) }

/-- Lines 243-244: plain accept, creating the edge `(a, n)` symmetrically. -/
def acceptStep (n a : Nat) (st : SimState) : SimState :=
  { st with est := addEdge a n st.est }

/-- Lines 252-260: preempt `lowest`, re-admit it into both known sets, then
create the edge `(a, n)`; count the replacement. -/
def replaceStep (n a lowest : Nat) (st : SimState) : SimState :=
  let e := removeEdge lowest a st.est
  let k1 := fupd st.known a (st.known a ++ [lowest])
  let k2 := fupd k1 lowest (k1 lowest ++ [a])
  { st with est := addEdge a n e, known := k2,
            replacementsPerTick := incLast st.replacementsPerTick }

/-- Lines 263-266: reject, counting it and queueing `a` for retry by `n`. -/
def rejectStep (n a : Nat) (st : SimState) : SimState :=
  { st with rejectsPerTick := incLast st.rejectsPerTick,
            retry := fupd st.retry n (st.retry n ++ [a]) }

/-- Lines 230-233: `lowest_rank_connection` together with the cache state
after computing it.  With peer ordering disabled it is `connections[0]` and
no priority is computed; with an empty connection list the source leaves it
undefined (it is then never read on any reachable path), modelled as `0`. -/
def lowestRank (s : Settings) (n : Nat) (l : List Nat) (c : PrioCache) :
    Nat × PrioCache :=
  if 0 < l.length then
    if s.usePeerOrdering then minByPrio n l c else (l.headD 0, c)
  else (0, c)

/-- Resolve the single outstanding attempt `(n → a)` (the body of the inner
loop, lines 211-274).  `lowest` is computed before the branch, exactly as in
the source (lines 230-233), including its cache side effects. -/
def resolveAttempt (s : Settings) (n a : Nat) (st : SimState) : SimState :=
  let st1 := learnStep n a st
  match lowestRank s n (st1.est a) st1.cache with
  | (lowest, c2) =>
    let st2 := { st1 with cache := c2 }
    if a ∈ st2.est n then
      -- already connected (mutual dial): established = True, nothing else done
      removeAttempt n a (cleanupKnown n a st2)
    else if (st2.est a).length < s.maxPeers then
      removeAttempt n a (cleanupKnown n a (acceptStep n a st2))
    else if s.usePeerOrdering then
      match prioC st2.cache lowest a with
      | (pl, c3) =>
        match prioC c3 n a with
        | (pn, c4) =>
          let st3 := { st2 with cache := c4 }
          if pl < pn then removeAttempt n a (cleanupKnown n a (replaceStep n a lowest st3))
          else removeAttempt n a (rejectStep n a st3)
    else
      removeAttempt n a (rejectStep n a st2)

/-- Resolve all of peer `n`'s attempts, iterating over the snapshot
`list(connection_attempts[n])` taken at the start of `n`'s turn. -/
def resolveAttempts (s : Settings) (n : Nat) (st : SimState) : SimState :=
  (st.att n).foldl (fun acc a => resolveAttempt s n a acc) st

/-- Lines 276-280: startup-ramp sampling for peer `n`, executed right after
`n`'s own attempts are resolved (inside the per-peer loop). -/
def samplePeer (s : Settings) (n : Nat) (st : SimState) : SimState :=
  if s.maxPeers ≤ n then
    { st with startup := recordSample (st.tick - st.joinTime n) (st.est n).length st.startup }
  else st

/-- One iteration of the outer resolution loop for peer `n`. -/
def stepPeer (s : Settings) (st : SimState) (n : Nat) : SimState :=
  samplePeer s n (resolveAttempts s n st)

/-- The whole resolution phase: every peer in ascending id order. -/
def resolvePhase (s : Settings) (st : SimState) : SimState :=
  st.swarm.foldl (stepPeer s) st

/-! ## The connection scheduler (`maybe_connect_more_peers`), lines 146-173 -/

/-- Lines 165-169: choose the next dial target out of `known[n] = l` and
remove it — the first `prio`-maximal element when ordering is on, otherwise
`l.pop(randint(0, len(l)-1))`.  `pick` abstracts `random.randint` (reduced
mod the list length, so any oracle yields a valid index).  Returns
`(target, remaining known list, cache)`. -/
def pickTarget (s : Settings) (pick : List Nat → Nat) (n : Nat) (l : List Nat)
    (c : PrioCache) : Nat × List Nat × PrioCache :=
  if s.usePeerOrdering then
    match maxByPrio n l c with
    | (p, c') => (p, l.erase p, c')
  else
    let i := pick l % l.length
    (l.getD i 0, l.eraseIdx i, c)

/-- The scheduling `while` loop (lines 158-173), with fuel: every iteration
moves one peer out of `known[n]`, so fuel `|known[n]|` always suffices. -/
def connectLoop (s : Settings) (pick : List Nat → Nat) (n : Nat) :
    Nat → SimState → SimState
  | 0, st => st
  | fuel + 1, st =>
    if (st.est n).length + (st.att n).length < s.maxPeers
        ∧ (st.att n).length < s.halfOpenLimit
        ∧ 0 < (st.known n).length then
      match pickTarget s pick n (st.known n) st.cache with
      | (peer, rest, c') =>
        connectLoop s pick n fuel
          { st with known := fupd st.known n rest, cache := c',
                    att := fupd st.att n (st.att n ++ [peer]),
                    attemptsPerTick := incLast st.attemptsPerTick }
    else st

/-- `maybe_connect_more_peers(n)`: swap the retry set back in when the known
set is exhausted (lines 151-153), then run the dial loop.  The early return
at lines 155-156 performs no side effect and is subsumed by the loop guard. -/
def maybeConnectMorePeers (s : Settings) (pick : List Nat → Nat) (n : Nat)
    (st : SimState) : SimState :=
  let st :=
    if (st.known n).length = 0 ∧ 0 < (st.retry n).length then
      { st with known := fupd st.known n (st.retry n),
                retry := fupd st.retry n [] }
    else st
  connectLoop s pick n (st.known n).length st

/-- The scheduling phase of a tick (lines 282-283). -/
def schedulePhase (s : Settings) (pick : List Nat → Nat) (st : SimState) : SimState :=
  st.swarm.foldl (fun acc n => maybeConnectMorePeers s pick n acc) st

/-- Lines 205-207: push a fresh `0` onto each per-tick counter list. -/
def beginTick (st : SimState) : SimState :=
  { st with rejectsPerTick := st.rejectsPerTick ++ [0],
            replacementsPerTick := st.replacementsPerTick ++ [0],
            attemptsPerTick := st.attemptsPerTick ++ [0] }

/-- `step()`: counters, resolution phase, scheduling phase. -/
def step (s : Settings) (pick : List Nat → Nat) (st : SimState) : SimState :=
  schedulePhase s pick (resolvePhase s (beginTick st))

/-! ## Peer discovery (`add_new_peer`), lines 176-201

`shuffle` abstracts `random.shuffle` (only consulted in the
tracker-limited knowledge model); any permutation-producing oracle
instantiates it. -/

/-- `add_new_peer(n)`. -/
def addNewPeer (s : Settings) (pick : List Nat → Nat)
    (shuffle : List Nat → List Nat) (n : Nat) (st : SimState) : SimState :=
  let st :=
    if s.useGlobalKnowledge then
      let st := { st with known := fupd st.known n st.swarm }
      { st with known := st.swarm.foldl (fun m p => fupd m p (m p ++ [n])) st.known }
    else
      { st with known := fupd st.known n ((shuffle st.swarm).take s.peersFromTracker) }
  let st := { st with retry := fupd st.retry n [] }
  let st := { st with swarm := st.swarm ++ [n], joinTime := fupd st.joinTime n st.tick }
  maybeConnectMorePeers s pick n st

/-! ## The main loop, lines 469-481 (rendering omitted: it does not touch
the simulation state) -/

/-- One main-loop iteration with loop counter `i`: `step()`, then every
other tick a new peer (id = current swarm size) joins while below the
target size, then the tick counter advances. -/
def mainIteration (s : Settings) (pick : List Nat → Nat)
    (shuffle : List Nat → List Nat) (i : Nat) (st : SimState) : SimState :=
  let st := step s pick st
  let st :=
    if st.swarm.length < s.swarmSize ∧ i % 2 = 0 then
      addNewPeer s pick shuffle st.swarm.length st
    else st
  { st with tick := st.tick + 1 }

/-- The state after `k` main-loop iterations (the program runs
`swarm_size * 3` of them; every claim about "after every tick" is proved
for all `k`). -/
def simulate (s : Settings) (pick : List Nat → Nat)
    (shuffle : List Nat → List Nat) : Nat → SimState
  | 0 => initState
  | k + 1 => mainIteration s pick shuffle k (simulate s pick shuffle k)

/-! ## The percentile helper, lines 398-417

Python floats are modelled as exact rationals; every arithmetic operation
the claimed inputs exercise (`*`, `-`, `+`, `floor`, `ceil` on halves and
small integers) is exact in IEEE double precision, so the models agree
there.  `int()` truncation on the nonnegative indices arising for
`percent ∈ [0, 1]` is `Int.toNat ∘ Int.floor`; list indexing is total via
`getD` (the program only indexes in bounds for such `percent`). -/

/-- `percentile(N, percent)` with the default identity `key`. -/
def percentile (N : List ℚ) (percent : ℚ) : Option ℚ :=
  if N = [] then none
  else
    let k : ℚ := ((N.length : ℚ) - 1) * percent
    let f : ℤ := ⌊k⌋
    let c : ℤ := ⌈k⌉
    if f = c then some (N.getD k.floor.toNat 0)
    else
      let d0 := N.getD f.toNat 0 * ((c : ℚ) - k)
      let d1 := N.getD c.toNat 0 * (k - (f : ℚ))
      some (d0 + d1)

/-! ## SHA-1 sanity: the standard test vectors -/

/-- SHA-1 of `"abc"` matches the FIPS 180 test vector. -/
theorem sha1Nat_abc : sha1Nat [0x61, 0x62, 0x63] = 0xa9993e364706816aba3e25717850c26c9cd0d89d := by
  decide

/-- SHA-1 of the empty message matches the standard value. -/
theorem sha1Nat_empty : sha1Nat [] = 0xda39a3ee5e6b4b0d3255bfef95601890afd80709 := by
  decide

/-! ## Basic lemmas -/

@[simp] theorem fupd_apply {α : Type} (m : Nat → α) (p q : Nat) (v : α) :
    fupd m p v q = if q = p then v else m q := rfl

/-- The priority function is symmetric in its arguments (canonicalization). -/
theorem prio_symm (a b : Nat) : prio a b = prio b a := by
  unfold prio prioInput
  rcases Nat.lt_trichotomy a b with h | h | h
  · simp [h, Nat.not_lt.mpr (Nat.le_of_lt h)]
  · simp [h]
  · simp [h, Nat.not_lt.mpr (Nat.le_of_lt h)]

theorem pcLookup_mem {c : PrioCache} {p : Nat × Nat} {v : Nat}
    (h : pcLookup c p = some v) : (p, v) ∈ c := by
  induction c with
  | nil => simp [pcLookup] at h
  | cons e t ih =>
    obtain ⟨q, w⟩ := e
    by_cases hpq : p = q
    · subst hpq
      simp [pcLookup] at h
      simp [h]
    · simp [pcLookup, hpq] at h
      exact List.mem_cons_of_mem _ (ih h)

/-- Hashing the concatenated digits of a canonically ordered pair is `prio`. -/
theorem prio_of_canon {x y : Nat} (h : ¬ x > y) :
    sha1Nat (decRepr x ++ decRepr y) = prio x y := by
  unfold prio prioInput
  rw [if_neg h]

theorem prioC_core {c : PrioCache} (hc : CacheValid c) (a b : Nat) (p : Nat × Nat)
    (hp : (if a > b then ((b : Nat), a) else (a, b)) = p) (hcanon : ¬ p.1 > p.2)
    (hpv : prio p.1 p.2 = prio a b) :
    (prioC c a b).1 = prio a b ∧ CacheValid (prioC c a b).2 := by
  rcases hlk : pcLookup c p with _ | v
  · constructor
    · simp only [prioC, hp, hlk]
      exact (prio_of_canon hcanon).trans hpv
    · intro q w hqw
      simp only [prioC, hp, hlk] at hqw
      rcases List.mem_cons.mp hqw with h | h
      · rw [Prod.mk.injEq] at h
        obtain ⟨rfl, rfl⟩ := h
        exact prio_of_canon hcanon
      · exact hc q w h
  · have hv : v = prio p.1 p.2 := hc p v (pcLookup_mem hlk)
    constructor
    · simp only [prioC, hp, hlk]
      exact hv.trans hpv
    · simp only [prioC, hp, hlk]
      exact hc

/-- A valid cache makes the memoized `prio` agree with the pure one, and
stays valid. -/
theorem prioC_spec {c : PrioCache} (hc : CacheValid c) (a b : Nat) :
    (prioC c a b).1 = prio a b ∧ CacheValid (prioC c a b).2 := by
  by_cases hab : a > b
  · exact prioC_core hc a b (b, a) (if_pos hab) (by simp; omega) (prio_symm b a)
  · exact prioC_core hc a b (a, b) (if_neg hab) (by simpa using hab) rfl

/-- The element returned by the memoized first-minimum loop is among the
candidates. -/
theorem minByPrioAux_mem (n : Nat) (t : List Nat) (best bk : Nat) (c : PrioCache) :
    (minByPrioAux n t best bk c).1 ∈ best :: t := by
  induction t generalizing best bk c with
  | nil => simp [minByPrioAux]
  | cons x t ih =>
    unfold minByPrioAux
    rcases hpc : prioC c n x with ⟨kx, c'⟩
    simp only [hpc]
    by_cases hlt : kx < bk
    · rw [if_pos hlt]
      have := ih x kx c'
      simp only [List.mem_cons] at this ⊢
      tauto
    · rw [if_neg hlt]
      have := ih best bk c'
      simp only [List.mem_cons] at this ⊢
      tauto

theorem minByPrio_mem {n : Nat} {l : List Nat} {c : PrioCache} (h : l ≠ []) :
    (minByPrio n l c).1 ∈ l := by
  cases l with
  | nil => exact absurd rfl h
  | cons x t =>
    unfold minByPrio
    rcases hpc : prioC c n x with ⟨kx, c'⟩
    simp only [hpc]
    exact minByPrioAux_mem n t x kx c'

theorem maxByPrioAux_mem (n : Nat) (t : List Nat) (best bk : Nat) (c : PrioCache) :
    (maxByPrioAux n t best bk c).1 ∈ best :: t := by
  induction t generalizing best bk c with
  | nil => simp [maxByPrioAux]
  | cons x t ih =>
    unfold maxByPrioAux
    rcases hpc : prioC c n x with ⟨kx, c'⟩
    simp only [hpc]
    by_cases hlt : kx > bk
    · rw [if_pos hlt]
      have := ih x kx c'
      simp only [List.mem_cons] at this ⊢
      tauto
    · rw [if_neg hlt]
      have := ih best bk c'
      simp only [List.mem_cons] at this ⊢
      tauto

theorem maxByPrio_mem {n : Nat} {l : List Nat} {c : PrioCache} (h : l ≠ []) :
    (maxByPrio n l c).1 ∈ l := by
  cases l with
  | nil => exact absurd rfl h
  | cons x t =>
    unfold maxByPrio
    rcases hpc : prioC c n x with ⟨kx, c'⟩
    simp only [hpc]
    exact maxByPrioAux_mem n t x kx c'

/-- The pure first-minimum of `prio n ·` over a list (Python `min(l, key)`
semantics, ties to the earlier element): auxiliary loop. -/
def minKeyAux (n : Nat) : List Nat → Nat → Nat
  | [], best => best
  | x :: t, best => if prio n x < prio n best then minKeyAux n t x else minKeyAux n t best

/-- The pure first-minimum of `prio n ·` over a list. -/
def minKey (n : Nat) : List Nat → Nat
  | [] => 0
  | h :: t => minKeyAux n t h

theorem minByPrioAux_spec {c : PrioCache} (hc : CacheValid c) (n : Nat)
    (t : List Nat) (best bk : Nat) (hbk : bk = prio n best) :
    (minByPrioAux n t best bk c).1 = minKeyAux n t best
    ∧ CacheValid (minByPrioAux n t best bk c).2 := by
  induction t generalizing best bk c with
  | nil => exact ⟨rfl, hc⟩
  | cons x t ih =>
    subst hbk
    rcases hpc : prioC c n x with ⟨kx, c'⟩
    have hx : kx = prio n x := by
      have := (prioC_spec hc n x).1
      rw [hpc] at this
      exact this
    have hcx : CacheValid c' := by
      have := (prioC_spec hc n x).2
      rw [hpc] at this
      exact this
    unfold minByPrioAux minKeyAux
    simp only [hpc]
    by_cases h : prio n x < prio n best
    · rw [if_pos (by rw [hx]; exact h), if_pos h]
      exact ih hcx x kx hx
    · rw [if_neg (by rw [hx]; exact h), if_neg h]
      exact ih hcx best (prio n best) rfl

theorem minByPrio_spec {c : PrioCache} (hc : CacheValid c) (n : Nat) (l : List Nat) :
    (minByPrio n l c).1 = minKey n l ∧ CacheValid (minByPrio n l c).2 := by
  cases l with
  | nil => exact ⟨rfl, hc⟩
  | cons h t =>
    rcases hpc : prioC c n h with ⟨kh, c'⟩
    have hh : kh = prio n h := by
      have := (prioC_spec hc n h).1
      rw [hpc] at this
      exact this
    have hch : CacheValid c' := by
      have := (prioC_spec hc n h).2
      rw [hpc] at this
      exact this
    unfold minByPrio minKey
    simp only [hpc]
    exact minByPrioAux_spec hch n t h kh hh

theorem minKeyAux_mem (n : Nat) (t : List Nat) (best : Nat) :
    minKeyAux n t best ∈ best :: t := by
  induction t generalizing best with
  | nil => simp [minKeyAux]
  | cons x t ih =>
    unfold minKeyAux
    split
    · have := ih x
      simp only [List.mem_cons] at this ⊢
      tauto
    · have := ih best
      simp only [List.mem_cons] at this ⊢
      tauto

theorem minKey_mem {n : Nat} {l : List Nat} (h : l ≠ []) : minKey n l ∈ l := by
  cases l with
  | nil => exact absurd rfl h
  | cons x t => exact minKeyAux_mem n t x

/-! ## Frame lemmas: which fields each operation leaves untouched -/

theorem learnStep_est (n a : Nat) (st : SimState) : (learnStep n a st).est = st.est := by
  unfold learnStep
  split <;> rfl

theorem learnStep_att (n a : Nat) (st : SimState) : (learnStep n a st).att = st.att := by
  unfold learnStep
  split <;> rfl

theorem learnStep_retry (n a : Nat) (st : SimState) : (learnStep n a st).retry = st.retry := by
  unfold learnStep
  split <;> rfl

theorem learnStep_cache (n a : Nat) (st : SimState) : (learnStep n a st).cache = st.cache := by
  unfold learnStep
  split <;> rfl

theorem learnStep_swarm (n a : Nat) (st : SimState) : (learnStep n a st).swarm = st.swarm := by
  unfold learnStep
  split <;> rfl

theorem learnStep_tick (n a : Nat) (st : SimState) : (learnStep n a st).tick = st.tick := by
  unfold learnStep
  split <;> rfl

theorem learnStep_joinTime (n a : Nat) (st : SimState) :
    (learnStep n a st).joinTime = st.joinTime := by
  unfold learnStep
  split <;> rfl

theorem learnStep_startup (n a : Nat) (st : SimState) :
    (learnStep n a st).startup = st.startup := by
  unfold learnStep
  split <;> rfl

theorem learnStep_rejects (n a : Nat) (st : SimState) :
    (learnStep n a st).rejectsPerTick = st.rejectsPerTick := by
  unfold learnStep
  split <;> rfl

theorem learnStep_repls (n a : Nat) (st : SimState) :
    (learnStep n a st).replacementsPerTick = st.replacementsPerTick := by
  unfold learnStep
  split <;> rfl

theorem learnStep_attempts (n a : Nat) (st : SimState) :
    (learnStep n a st).attemptsPerTick = st.attemptsPerTick := by
  unfold learnStep
  split <;> rfl

theorem samplePeer_others (s : Settings) (n : Nat) (st : SimState) :
    (samplePeer s n st).est = st.est ∧ (samplePeer s n st).att = st.att
    ∧ (samplePeer s n st).known = st.known ∧ (samplePeer s n st).retry = st.retry
    ∧ (samplePeer s n st).swarm = st.swarm ∧ (samplePeer s n st).tick = st.tick
    ∧ (samplePeer s n st).joinTime = st.joinTime
    ∧ (samplePeer s n st).cache = st.cache
    ∧ (samplePeer s n st).rejectsPerTick = st.rejectsPerTick
    ∧ (samplePeer s n st).replacementsPerTick = st.replacementsPerTick
    ∧ (samplePeer s n st).attemptsPerTick = st.attemptsPerTick := by
  unfold samplePeer
  split <;> exact ⟨rfl, rfl, rfl, rfl, rfl, rfl, rfl, rfl, rfl, rfl, rfl⟩

/-- The attempt set update of a single attempt resolution: the processed
target is erased from the dialer's attempt list, nothing else changes. -/
theorem resolveAttempt_att (s : Settings) (n a : Nat) (st : SimState) :
    (resolveAttempt s n a st).att = fupd st.att n ((st.att n).erase a) := by
  simp only [resolveAttempt]
  split_ifs <;>
    simp [removeAttempt, cleanupKnown, acceptStep, replaceStep, rejectStep, learnStep_att]

theorem resolveAttempt_swarm (s : Settings) (n a : Nat) (st : SimState) :
    (resolveAttempt s n a st).swarm = st.swarm := by
  simp only [resolveAttempt]
  split_ifs <;>
    simp [removeAttempt, cleanupKnown, acceptStep, replaceStep, rejectStep, learnStep_swarm]

theorem resolveAttempt_tick (s : Settings) (n a : Nat) (st : SimState) :
    (resolveAttempt s n a st).tick = st.tick := by
  simp only [resolveAttempt]
  split_ifs <;>
    simp [removeAttempt, cleanupKnown, acceptStep, replaceStep, rejectStep, learnStep_tick]

theorem resolveAttempt_joinTime (s : Settings) (n a : Nat) (st : SimState) :
    (resolveAttempt s n a st).joinTime = st.joinTime := by
  simp only [resolveAttempt]
  split_ifs <;>
    simp [removeAttempt, cleanupKnown, acceptStep, replaceStep, rejectStep, learnStep_joinTime]

theorem resolveAttempt_startup (s : Settings) (n a : Nat) (st : SimState) :
    (resolveAttempt s n a st).startup = st.startup := by
  simp only [resolveAttempt]
  split_ifs <;>
    simp [removeAttempt, cleanupKnown, acceptStep, replaceStep, rejectStep, learnStep_startup]

/-! ## Lemmas about the scheduler -/

theorem getD_mem {l : List Nat} {i : Nat} (h : i < l.length) (d : Nat) :
    l.getD i d ∈ l := by
  rw [List.getD_eq_getElem?_getD, List.getElem?_eq_getElem h]
  exact List.getElem_mem h

/-- The chosen dial target is a member of the known list. -/
theorem pickTarget_mem (s : Settings) (pick : List Nat → Nat) (n : Nat)
    {l : List Nat} (c : PrioCache) (h : 0 < l.length) :
    (pickTarget s pick n l c).1 ∈ l := by
  have hne : l ≠ [] := List.ne_nil_of_length_pos h
  unfold pickTarget
  split_ifs
  · rcases hmx : maxByPrio n l c with ⟨p, c'⟩
    simp only [hmx]
    have := maxByPrio_mem (n := n) (c := c) hne
    rw [hmx] at this
    exact this
  · exact getD_mem (Nat.mod_lt _ h) 0

/-- Picking removes exactly one element from the known list. -/
theorem pickTarget_len (s : Settings) (pick : List Nat → Nat) (n : Nat)
    {l : List Nat} (c : PrioCache) (h : 0 < l.length) :
    (pickTarget s pick n l c).2.1.length = l.length - 1 := by
  unfold pickTarget
  split_ifs
  · rcases hmx : maxByPrio n l c with ⟨p, c'⟩
    simp only [hmx]
    have hm := maxByPrio_mem (n := n) (c := c) (List.ne_nil_of_length_pos h)
    rw [hmx] at hm
    exact List.length_erase_of_mem hm
  · rw [List.length_eraseIdx, if_pos (Nat.mod_lt _ h)]

/-- The surviving known list is a sublist of the original one. -/
theorem pickTarget_subset (s : Settings) (pick : List Nat → Nat) (n : Nat)
    (l : List Nat) (c : PrioCache) :
    (pickTarget s pick n l c).2.1 ⊆ l := by
  unfold pickTarget
  split_ifs
  · rcases hmx : maxByPrio n l c with ⟨p, c'⟩
    simp only [hmx]
    exact List.erase_subset _ _
  · exact List.eraseIdx_subset _ _

theorem connectLoop_est (s : Settings) (pick : List Nat → Nat) (n fuel : Nat)
    (st : SimState) : (connectLoop s pick n fuel st).est = st.est := by
  induction fuel generalizing st with
  | zero => rfl
  | succ f ih =>
    unfold connectLoop
    split_ifs
    · rcases hpt : pickTarget s pick n (st.known n) st.cache with ⟨peer, rest, c'⟩
      simp only [hpt]
      exact ih _
    · rfl

theorem connectLoop_retry (s : Settings) (pick : List Nat → Nat) (n fuel : Nat)
    (st : SimState) : (connectLoop s pick n fuel st).retry = st.retry := by
  induction fuel generalizing st with
  | zero => rfl
  | succ f ih =>
    unfold connectLoop
    split_ifs
    · rcases hpt : pickTarget s pick n (st.known n) st.cache with ⟨peer, rest, c'⟩
      simp only [hpt]
      exact ih _
    · rfl

theorem connectLoop_swarm (s : Settings) (pick : List Nat → Nat) (n fuel : Nat)
    (st : SimState) : (connectLoop s pick n fuel st).swarm = st.swarm := by
  induction fuel generalizing st with
  | zero => rfl
  | succ f ih =>
    unfold connectLoop
    split_ifs
    · rcases hpt : pickTarget s pick n (st.known n) st.cache with ⟨peer, rest, c'⟩
      simp only [hpt]
      exact ih _
    · rfl

theorem connectLoop_tick (s : Settings) (pick : List Nat → Nat) (n fuel : Nat)
    (st : SimState) : (connectLoop s pick n fuel st).tick = st.tick := by
  induction fuel generalizing st with
  | zero => rfl
  | succ f ih =>
    unfold connectLoop
    split_ifs
    · rcases hpt : pickTarget s pick n (st.known n) st.cache with ⟨peer, rest, c'⟩
      simp only [hpt]
      exact ih _
    · rfl

theorem connectLoop_joinTime (s : Settings) (pick : List Nat → Nat) (n fuel : Nat)
    (st : SimState) : (connectLoop s pick n fuel st).joinTime = st.joinTime := by
  induction fuel generalizing st with
  | zero => rfl
  | succ f ih =>
    unfold connectLoop
    split_ifs
    · rcases hpt : pickTarget s pick n (st.known n) st.cache with ⟨peer, rest, c'⟩
      simp only [hpt]
      exact ih _
    · rfl

theorem connectLoop_startup (s : Settings) (pick : List Nat → Nat) (n fuel : Nat)
    (st : SimState) : (connectLoop s pick n fuel st).startup = st.startup := by
  induction fuel generalizing st with
  | zero => rfl
  | succ f ih =>
    unfold connectLoop
    split_ifs
    · rcases hpt : pickTarget s pick n (st.known n) st.cache with ⟨peer, rest, c'⟩
      simp only [hpt]
      exact ih _
    · rfl

/-- The dial loop only touches the scheduled peer's attempt list. -/
theorem connectLoop_att_ne (s : Settings) (pick : List Nat → Nat) (n fuel : Nat)
    (st : SimState) {q : Nat} (hq : q ≠ n) :
    (connectLoop s pick n fuel st).att q = st.att q := by
  induction fuel generalizing st with
  | zero => rfl
  | succ f ih =>
    unfold connectLoop
    split_ifs
    · rcases hpt : pickTarget s pick n (st.known n) st.cache with ⟨peer, rest, c'⟩
      simp only [hpt]
      rw [ih]
      simp [hq]
    · rfl

/-- Exact count of attempts created by the dial loop (lines 158-173): the
loop fills up to the joint `max_peers` capacity and the `half_open_limit`,
bounded by the number of known peers, provided the fuel covers the known
list. -/
theorem connectLoop_att_len (s : Settings) (pick : List Nat → Nat) (n : Nat)
    (fuel : Nat) (st : SimState) (hfuel : (st.known n).length ≤ fuel) :
    ((connectLoop s pick n fuel st).att n).length
      = (st.att n).length
        + min (st.known n).length
            (min (s.maxPeers - (st.est n).length) s.halfOpenLimit - (st.att n).length) := by
  induction fuel generalizing st with
  | zero =>
    have h0 : (st.known n).length = 0 := Nat.le_zero.mp hfuel
    simp [connectLoop, h0]
  | succ f ih =>
    unfold connectLoop
    split_ifs with hg
    · obtain ⟨hcap, hhalf, hknown⟩ := hg
      rcases hpt : pickTarget s pick n (st.known n) st.cache with ⟨peer, rest, c'⟩
      simp only [hpt]
      have hrest : rest.length = (st.known n).length - 1 := by
        have := pickTarget_len s pick n st.cache hknown
        rw [hpt] at this
        exact this
      rw [ih]
      · simp [fupd_apply]
        omega
      · simp [fupd_apply]
        omega
    · push_neg at hg
      rcases Nat.lt_or_ge (st.att n).length s.halfOpenLimit with hh | hh
      · rcases Nat.lt_or_ge ((st.est n).length + (st.att n).length) s.maxPeers with hc | hc
        · have : (st.known n).length = 0 := by omega
          simp [this]
        · have : min (s.maxPeers - (st.est n).length) s.halfOpenLimit - (st.att n).length = 0 := by
            omega
          simp [this]
      · have : min (s.maxPeers - (st.est n).length) s.halfOpenLimit - (st.att n).length = 0 := by
          omega
        simp [this]

theorem maybeConnect_est (s : Settings) (pick : List Nat → Nat) (n : Nat)
    (st : SimState) : (maybeConnectMorePeers s pick n st).est = st.est := by
  unfold maybeConnectMorePeers
  split_ifs <;> exact connectLoop_est ..

theorem maybeConnect_swarm (s : Settings) (pick : List Nat → Nat) (n : Nat)
    (st : SimState) : (maybeConnectMorePeers s pick n st).swarm = st.swarm := by
  unfold maybeConnectMorePeers
  split_ifs <;> exact connectLoop_swarm ..

theorem maybeConnect_tick (s : Settings) (pick : List Nat → Nat) (n : Nat)
    (st : SimState) : (maybeConnectMorePeers s pick n st).tick = st.tick := by
  unfold maybeConnectMorePeers
  split_ifs <;> exact connectLoop_tick ..

theorem maybeConnect_joinTime (s : Settings) (pick : List Nat → Nat) (n : Nat)
    (st : SimState) : (maybeConnectMorePeers s pick n st).joinTime = st.joinTime := by
  unfold maybeConnectMorePeers
  split_ifs <;> exact connectLoop_joinTime ..

theorem maybeConnect_startup (s : Settings) (pick : List Nat → Nat) (n : Nat)
    (st : SimState) : (maybeConnectMorePeers s pick n st).startup = st.startup := by
  unfold maybeConnectMorePeers
  split_ifs <;> exact connectLoop_startup ..

theorem maybeConnect_att_ne (s : Settings) (pick : List Nat → Nat) (n : Nat)
    (st : SimState) {q : Nat} (hq : q ≠ n) :
    (maybeConnectMorePeers s pick n st).att q = st.att q := by
  unfold maybeConnectMorePeers
  split_ifs <;> exact connectLoop_att_ne s pick n _ _ hq

/-- The scheduler keeps the attempt count within `half_open_limit` (up to
what was already there) and the joint load within `max_peers` (likewise). -/
theorem maybeConnect_bounds (s : Settings) (pick : List Nat → Nat) (n : Nat)
    (st : SimState) :
    ((maybeConnectMorePeers s pick n st).att n).length
        ≤ max (st.att n).length s.halfOpenLimit
    ∧ ((maybeConnectMorePeers s pick n st).est n).length
        + ((maybeConnectMorePeers s pick n st).att n).length
        ≤ max ((st.est n).length + (st.att n).length) s.maxPeers := by
  unfold maybeConnectMorePeers
  split_ifs with hsw
  · rw [connectLoop_att_len _ _ _ _ _ le_rfl, connectLoop_est]
    constructor <;> (simp [fupd_apply]; omega)
  · rw [connectLoop_att_len _ _ _ _ _ le_rfl, connectLoop_est]
    constructor <;> omega

/-- The exact number of attempts a freshly initialized peer ends up with
after one scheduler call. -/
theorem maybeConnect_fresh (s : Settings) (pick : List Nat → Nat) (n : Nat)
    (st : SimState) (hest : st.est n = []) (hatt : st.att n = [])
    (hretry : st.retry n = []) :
    ((maybeConnectMorePeers s pick n st).att n).length
      = min (min s.maxPeers s.halfOpenLimit) (st.known n).length := by
  unfold maybeConnectMorePeers
  rw [if_neg (by simp [hretry])]
  rw [connectLoop_att_len _ _ _ _ _ le_rfl]
  simp [hest, hatt]
  omega

/-! ## The resolution phase empties every swarm member's attempt list -/

theorem foldl_erase_self (l : List Nat) :
    l.foldl (fun ac x => ac.erase x) l = [] := by
  have h : ∀ init rest : List Nat, init = rest →
      rest.foldl (fun ac x => ac.erase x) init = [] := by
    intro init rest
    induction rest generalizing init with
    | nil => intro h; simp [h]
    | cons x xs ih =>
      intro h
      subst h
      simp only [List.foldl_cons, List.erase_cons_head]
      exact ih xs rfl
  exact h l l rfl

theorem foldl_resolve_att (s : Settings) (n : Nat) (l : List Nat)
    (st : SimState) (q : Nat) :
    ((l.foldl (fun acc a => resolveAttempt s n a acc) st).att) q
      = if q = n then l.foldl (fun ac x => ac.erase x) (st.att n) else st.att q := by
  induction l generalizing st with
  | nil => split_ifs with h <;> simp [h]
  | cons a l ih =>
    simp only [List.foldl_cons]
    rw [ih]
    rw [resolveAttempt_att]
    split_ifs with h <;> simp [fupd_apply, h]

theorem resolveAttempts_att (s : Settings) (n : Nat) (st : SimState) (q : Nat) :
    (resolveAttempts s n st).att q = if q = n then [] else st.att q := by
  unfold resolveAttempts
  rw [foldl_resolve_att]
  split_ifs with h
  · exact foldl_erase_self _
  · rfl

theorem foldl_resolve_swarm (s : Settings) (n : Nat) (l : List Nat) (st : SimState) :
    (l.foldl (fun acc a => resolveAttempt s n a acc) st).swarm = st.swarm := by
  induction l generalizing st with
  | nil => rfl
  | cons a l ih => simp only [List.foldl_cons]; rw [ih, resolveAttempt_swarm]

theorem foldl_resolve_tick (s : Settings) (n : Nat) (l : List Nat) (st : SimState) :
    (l.foldl (fun acc a => resolveAttempt s n a acc) st).tick = st.tick := by
  induction l generalizing st with
  | nil => rfl
  | cons a l ih => simp only [List.foldl_cons]; rw [ih, resolveAttempt_tick]

theorem foldl_resolve_joinTime (s : Settings) (n : Nat) (l : List Nat) (st : SimState) :
    (l.foldl (fun acc a => resolveAttempt s n a acc) st).joinTime = st.joinTime := by
  induction l generalizing st with
  | nil => rfl
  | cons a l ih => simp only [List.foldl_cons]; rw [ih, resolveAttempt_joinTime]

theorem stepPeer_att (s : Settings) (st : SimState) (n q : Nat) :
    (stepPeer s st n).att q = if q = n then [] else st.att q := by
  unfold stepPeer
  rw [(samplePeer_others s n _).2.1]
  exact resolveAttempts_att s n st q

theorem stepPeer_swarm (s : Settings) (st : SimState) (n : Nat) :
    (stepPeer s st n).swarm = st.swarm := by
  unfold stepPeer
  rw [(samplePeer_others s n _).2.2.2.2.1]
  exact foldl_resolve_swarm ..

theorem stepPeer_tick (s : Settings) (st : SimState) (n : Nat) :
    (stepPeer s st n).tick = st.tick := by
  unfold stepPeer
  rw [(samplePeer_others s n _).2.2.2.2.2.1]
  exact foldl_resolve_tick ..

theorem stepPeer_joinTime (s : Settings) (st : SimState) (n : Nat) :
    (stepPeer s st n).joinTime = st.joinTime := by
  unfold stepPeer
  rw [(samplePeer_others s n _).2.2.2.2.2.2.1]
  exact foldl_resolve_joinTime ..

theorem foldl_stepPeer_att (s : Settings) (L : List Nat) (st : SimState) (p : Nat) :
    ((L.foldl (stepPeer s) st).att) p = if p ∈ L then [] else st.att p := by
  induction L generalizing st with
  | nil => simp
  | cons n L ih =>
    simp only [List.foldl_cons]
    rw [ih, stepPeer_att]
    by_cases h1 : p ∈ L
    · simp [h1]
    · by_cases h2 : p = n <;> simp [h1, h2]

theorem foldl_stepPeer_swarm (s : Settings) (L : List Nat) (st : SimState) :
    (L.foldl (stepPeer s) st).swarm = st.swarm := by
  induction L generalizing st with
  | nil => rfl
  | cons n L ih => simp only [List.foldl_cons]; rw [ih, stepPeer_swarm]

/-- After the resolution phase, every swarm member's attempt list is empty
(every attempt is removed unconditionally, line 274), and no attempt list of
a non-member changed. -/
theorem resolvePhase_att (s : Settings) (st : SimState) (p : Nat) :
    (resolvePhase s st).att p = if p ∈ st.swarm then [] else st.att p :=
  foldl_stepPeer_att s st.swarm st p

theorem resolvePhase_swarm (s : Settings) (st : SimState) :
    (resolvePhase s st).swarm = st.swarm :=
  foldl_stepPeer_swarm s st.swarm st

/-! ## Bounds established by the scheduling phase -/

theorem foldl_mc_est (s : Settings) (pick : List Nat → Nat) (L : List Nat)
    (st : SimState) :
    (L.foldl (fun acc n => maybeConnectMorePeers s pick n acc) st).est = st.est := by
  induction L generalizing st with
  | nil => rfl
  | cons n L ih => simp only [List.foldl_cons]; rw [ih, maybeConnect_est]

theorem foldl_mc_swarm (s : Settings) (pick : List Nat → Nat) (L : List Nat)
    (st : SimState) :
    (L.foldl (fun acc n => maybeConnectMorePeers s pick n acc) st).swarm = st.swarm := by
  induction L generalizing st with
  | nil => rfl
  | cons n L ih => simp only [List.foldl_cons]; rw [ih, maybeConnect_swarm]

theorem foldl_mc_att_le (s : Settings) (pick : List Nat → Nat) (L : List Nat)
    (st : SimState) (p : Nat) :
    (((L.foldl (fun acc n => maybeConnectMorePeers s pick n acc) st).att) p).length
      ≤ max ((st.att p).length) s.halfOpenLimit := by
  induction L generalizing st with
  | nil => simp
  | cons n L ih =>
    simp only [List.foldl_cons]
    refine le_trans (ih _) ?_
    by_cases h : p = n
    · subst h
      have := (maybeConnect_bounds s pick p st).1
      omega
    · rw [maybeConnect_att_ne s pick n st h]

theorem foldl_mc_estatt_le (s : Settings) (pick : List Nat → Nat) (L : List Nat)
    (st : SimState) (p : Nat) :
    (((L.foldl (fun acc n => maybeConnectMorePeers s pick n acc) st).est) p).length
      + (((L.foldl (fun acc n => maybeConnectMorePeers s pick n acc) st).att) p).length
      ≤ max ((st.est p).length + (st.att p).length) s.maxPeers := by
  induction L generalizing st with
  | nil => simp
  | cons n L ih =>
    simp only [List.foldl_cons]
    refine le_trans (ih _) ?_
    by_cases h : p = n
    · subst h
      have := (maybeConnect_bounds s pick p st).2
      omega
    · rw [maybeConnect_att_ne s pick n st h, maybeConnect_est]

theorem schedulePhase_att_le (s : Settings) (pick : List Nat → Nat)
    (st : SimState) (p : Nat) :
    (((schedulePhase s pick st).att) p).length ≤ max ((st.att p).length) s.halfOpenLimit :=
  foldl_mc_att_le s pick st.swarm st p

theorem schedulePhase_estatt_le (s : Settings) (pick : List Nat → Nat)
    (st : SimState) (p : Nat) :
    (((schedulePhase s pick st).est) p).length + (((schedulePhase s pick st).att) p).length
      ≤ max ((st.est p).length + (st.att p).length) s.maxPeers :=
  foldl_mc_estatt_le s pick st.swarm st p

theorem schedulePhase_est (s : Settings) (pick : List Nat → Nat) (st : SimState) :
    (schedulePhase s pick st).est = st.est :=
  foldl_mc_est s pick st.swarm st

theorem schedulePhase_swarm (s : Settings) (pick : List Nat → Nat) (st : SimState) :
    (schedulePhase s pick st).swarm = st.swarm :=
  foldl_mc_swarm s pick st.swarm st

theorem foldl_mc_att_ne (s : Settings) (pick : List Nat → Nat) (L : List Nat)
    (st : SimState) {p : Nat} (hp : p ∉ L) :
    ((L.foldl (fun acc n => maybeConnectMorePeers s pick n acc) st).att) p = st.att p := by
  induction L generalizing st with
  | nil => rfl
  | cons n L ih =>
    have hpL : p ∉ L := fun h => hp (List.mem_cons_of_mem _ h)
    have hpn : p ≠ n := fun h => hp (h ▸ List.mem_cons_self n L)
    simp only [List.foldl_cons]
    rw [ih (maybeConnectMorePeers s pick n st) hpL, maybeConnect_att_ne s pick n st hpn]

/-! ## `addNewPeer` frame lemmas -/

theorem addNewPeer_est (s : Settings) (pick : List Nat → Nat)
    (shuffle : List Nat → List Nat) (n : Nat) (st : SimState) :
    (addNewPeer s pick shuffle n st).est = st.est := by
  unfold addNewPeer
  split_ifs <;> exact maybeConnect_est ..

theorem addNewPeer_swarm (s : Settings) (pick : List Nat → Nat)
    (shuffle : List Nat → List Nat) (n : Nat) (st : SimState) :
    (addNewPeer s pick shuffle n st).swarm = st.swarm ++ [n] := by
  unfold addNewPeer
  split_ifs <;> exact maybeConnect_swarm ..

theorem addNewPeer_att_ne (s : Settings) (pick : List Nat → Nat)
    (shuffle : List Nat → List Nat) (n : Nat) (st : SimState) {q : Nat} (hq : q ≠ n) :
    (addNewPeer s pick shuffle n st).att q = st.att q := by
  unfold addNewPeer
  split_ifs <;> exact maybeConnect_att_ne s pick n _ hq

/-! ## The attempt-set well-formedness invariant, preserved over the run -/

/-- Non-members have empty attempt lists and the swarm holds exactly the
consecutive ids `0, 1, ..., |swarm|-1` (every peer is created with
`add_new_peer(len(peers_in_swarm))`). -/
def AttWF (st : SimState) : Prop :=
  (∀ p, p ∉ st.swarm → st.att p = []) ∧ st.swarm = List.range st.swarm.length

theorem attWF_step (s : Settings) (pick : List Nat → Nat) (st : SimState)
    (h : AttWF st) : AttWF (step s pick st) := by
  obtain ⟨hoff, hrange⟩ := h
  constructor
  · intro p hp
    unfold step at hp ⊢
    rw [schedulePhase_swarm, resolvePhase_swarm] at hp
    have hp' : p ∉ (resolvePhase s (beginTick st)).swarm := by
      rw [resolvePhase_swarm]
      exact hp
    unfold schedulePhase
    rw [foldl_mc_att_ne s pick _ _ hp', resolvePhase_att, if_neg hp]
    exact hoff p hp
  · show (step s pick st).swarm = _
    unfold step
    rw [schedulePhase_swarm, resolvePhase_swarm]
    simpa using hrange

theorem attWF_addNewPeer (s : Settings) (pick : List Nat → Nat)
    (shuffle : List Nat → List Nat) (st : SimState) (h : AttWF st) :
    AttWF (addNewPeer s pick shuffle st.swarm.length st) := by
  obtain ⟨hoff, hrange⟩ := h
  constructor
  · intro p hp
    rw [addNewPeer_swarm] at hp
    simp only [List.mem_append, List.mem_singleton] at hp
    push_neg at hp
    rw [addNewPeer_att_ne s pick shuffle _ st hp.2]
    exact hoff p hp.1
  · rw [addNewPeer_swarm]
    simp only [List.length_append, List.length_singleton]
    rw [List.range_succ]
    exact congrArg (· ++ [st.swarm.length]) hrange

theorem attWF_mainIteration (s : Settings) (pick : List Nat → Nat)
    (shuffle : List Nat → List Nat) (i : Nat) (st : SimState) (h : AttWF st) :
    AttWF (mainIteration s pick shuffle i st) := by
  simp only [mainIteration]
  have h1 := attWF_step s pick st h
  split_ifs with hc
  · have h2 := attWF_addNewPeer s pick shuffle (step s pick st) h1
    exact ⟨h2.1, h2.2⟩
  · exact ⟨h1.1, h1.2⟩

theorem attWF_simulate (s : Settings) (pick : List Nat → Nat)
    (shuffle : List Nat → List Nat) (k : Nat) :
    AttWF (simulate s pick shuffle k) := by
  induction k with
  | zero => exact ⟨fun p _ => rfl, rfl⟩
  | succ k ih => exact attWF_mainIteration s pick shuffle k _ ih

/-! ## Per-tick attempt and load bounds -/

theorem length_notin_self {l : List Nat} (h : l = List.range l.length) :
    l.length ∉ l := by
  have h0 : l.length ∉ List.range l.length := by simp [List.mem_range]
  rw [← h] at h0
  exact h0

theorem step_att_empty (s : Settings) (pick : List Nat → Nat) (st : SimState)
    (h : AttWF st) (p : Nat) : (resolvePhase s (beginTick st)).att p = [] := by
  rw [resolvePhase_att]
  split_ifs with hm
  · rfl
  · exact h.1 p hm

theorem step_att_le (s : Settings) (pick : List Nat → Nat) (st : SimState)
    (h : AttWF st) (p : Nat) :
    ((step s pick st).att p).length ≤ s.halfOpenLimit := by
  unfold step
  have hb := schedulePhase_att_le s pick (resolvePhase s (beginTick st)) p
  rw [step_att_empty s pick st h p] at hb
  simpa using hb

theorem step_estatt (s : Settings) (pick : List Nat → Nat) (st : SimState)
    (h : AttWF st) (p : Nat) :
    ((step s pick st).est p).length + ((step s pick st).att p).length
      ≤ max s.maxPeers ((step s pick st).est p).length := by
  unfold step
  have hb := schedulePhase_estatt_le s pick (resolvePhase s (beginTick st)) p
  rw [step_att_empty s pick st h p] at hb
  rw [schedulePhase_est] at hb ⊢
  simp only [List.length_nil, Nat.add_zero] at hb
  omega

theorem addNewPeer_att_le (s : Settings) (pick : List Nat → Nat)
    (shuffle : List Nat → List Nat) (n : Nat) (st : SimState) :
    ((addNewPeer s pick shuffle n st).att n).length
      ≤ max ((st.att n).length) s.halfOpenLimit := by
  unfold addNewPeer
  split_ifs <;> exact (maybeConnect_bounds ..).1

theorem addNewPeer_estatt_le (s : Settings) (pick : List Nat → Nat)
    (shuffle : List Nat → List Nat) (n : Nat) (st : SimState) :
    ((addNewPeer s pick shuffle n st).est n).length
      + ((addNewPeer s pick shuffle n st).att n).length
      ≤ max ((st.est n).length + (st.att n).length) s.maxPeers := by
  unfold addNewPeer
  split_ifs <;> exact (maybeConnect_bounds ..).2

theorem mainIteration_att_le (s : Settings) (pick : List Nat → Nat)
    (shuffle : List Nat → List Nat) (i : Nat) (st : SimState) (h : AttWF st)
    (p : Nat) :
    ((mainIteration s pick shuffle i st).att p).length ≤ s.halfOpenLimit := by
  simp only [mainIteration]
  split_ifs with hc
  · show ((addNewPeer s pick shuffle (step s pick st).swarm.length
      (step s pick st)).att p).length ≤ _
    have h1 := attWF_step s pick st h
    by_cases hpn : p = (step s pick st).swarm.length
    · subst hpn
      have hempty : (step s pick st).att (step s pick st).swarm.length = [] :=
        h1.1 _ (length_notin_self h1.2)
      have hb := addNewPeer_att_le s pick shuffle (step s pick st).swarm.length
        (step s pick st)
      rw [hempty] at hb
      simpa using hb
    · rw [addNewPeer_att_ne s pick shuffle _ _ hpn]
      exact step_att_le s pick st h p
  · show ((step s pick st).att p).length ≤ _
    exact step_att_le s pick st h p

theorem mainIteration_estatt (s : Settings) (pick : List Nat → Nat)
    (shuffle : List Nat → List Nat) (i : Nat) (st : SimState) (h : AttWF st)
    (p : Nat) :
    ((mainIteration s pick shuffle i st).est p).length
      + ((mainIteration s pick shuffle i st).att p).length
      ≤ max s.maxPeers ((mainIteration s pick shuffle i st).est p).length := by
  simp only [mainIteration]
  split_ifs with hc
  · show ((addNewPeer s pick shuffle (step s pick st).swarm.length
      (step s pick st)).est p).length
      + ((addNewPeer s pick shuffle (step s pick st).swarm.length
      (step s pick st)).att p).length ≤ _
    have h1 := attWF_step s pick st h
    rw [addNewPeer_est]
    by_cases hpn : p = (step s pick st).swarm.length
    · subst hpn
      have hempty : (step s pick st).att (step s pick st).swarm.length = [] :=
        h1.1 _ (length_notin_self h1.2)
      have hb := addNewPeer_estatt_le s pick shuffle (step s pick st).swarm.length
        (step s pick st)
      rw [hempty, addNewPeer_est] at hb
      simp only [List.length_nil, Nat.add_zero] at hb
      omega
    · rw [addNewPeer_att_ne s pick shuffle _ _ hpn]
      exact step_estatt s pick st h p
  · show ((step s pick st).est p).length + ((step s pick st).att p).length ≤ _
    exact step_estatt s pick st h p

/-! ## The graph invariant: symmetry, no duplicates, no self-edges -/

/-- The connection relation is symmetric. -/
def Sym (m : Nat → List Nat) : Prop := ∀ x y, x ∈ m y ↔ y ∈ m x

/-- Every adjacency list is duplicate-free. -/
def NodupAll (m : Nat → List Nat) : Prop := ∀ p, (m p).Nodup

/-- No peer occurs in its own list. -/
def NoSelf (m : Nat → List Nat) : Prop := ∀ p, p ∉ m p

/-- The structural invariant of the swarm state. -/
structure Inv (st : SimState) : Prop where
  sym : Sym st.est
  nodup : NodupAll st.est
  estSelf : NoSelf st.est
  attSelf : NoSelf st.att
  knownSelf : NoSelf st.known
  retrySelf : NoSelf st.retry

theorem mem_addEdge (m : Nat → List Nat) (x y q r : Nat) :
    r ∈ addEdge x y m q ↔ r ∈ m q ∨ (q = x ∧ r = y) ∨ (q = y ∧ r = x) := by
  unfold addEdge
  by_cases hqy : q = y
  · subst hqy
    by_cases hqx : q = x
    · subst hqx
      simp [fupd_apply, List.mem_append]
    · simp [fupd_apply, hqx, Ne.symm hqx, List.mem_append]
  · by_cases hqx : q = x
    · subst hqx
      simp [fupd_apply, hqy, List.mem_append]
    · simp [fupd_apply, hqy, hqx]

theorem mem_removeEdge {m : Nat → List Nat} (hnd : NodupAll m) (x y q r : Nat) :
    r ∈ removeEdge x y m q ↔ r ∈ m q ∧ ¬(q = x ∧ r = y) ∧ ¬(q = y ∧ r = x) := by
  unfold removeEdge
  by_cases hqy : q = y
  · subst hqy
    by_cases hqx : q = x
    · subst hqx
      simp only [fupd_apply, eq_self_iff_true, if_true]
      rw [List.Nodup.mem_erase_iff ((hnd q).erase _), List.Nodup.mem_erase_iff (hnd q)]
      tauto
    · simp only [fupd_apply, eq_self_iff_true, if_true, if_neg hqx]
      rw [List.Nodup.mem_erase_iff (hnd q)]
      tauto
  · by_cases hqx : q = x
    · subst hqx
      simp only [fupd_apply, if_neg hqy, eq_self_iff_true, if_true]
      rw [List.Nodup.mem_erase_iff (hnd q)]
      tauto
    · simp only [fupd_apply, if_neg hqy, if_neg hqx]
      tauto

theorem sym_addEdge {m : Nat → List Nat} (h : Sym m) (x y : Nat) :
    Sym (addEdge x y m) := by
  intro p q
  rw [mem_addEdge, mem_addEdge]
  have := h p q
  tauto

theorem sym_removeEdge {m : Nat → List Nat} (hnd : NodupAll m) (h : Sym m)
    (x y : Nat) : Sym (removeEdge x y m) := by
  intro p q
  rw [mem_removeEdge hnd, mem_removeEdge hnd]
  have := h p q
  tauto

theorem nodup_addEdge {m : Nat → List Nat} (hnd : NodupAll m) {x y : Nat}
    (hxy : x ≠ y) (hx : y ∉ m x) (hy : x ∉ m y) : NodupAll (addEdge x y m) := by
  intro p
  unfold addEdge
  by_cases hpy : p = y
  · subst hpy
    simp only [fupd_apply, if_pos rfl, if_neg (Ne.symm hxy)]
    simp [List.nodup_append, hnd p, hy, List.Disjoint]
    intro r hr hrx
    exact hy (hrx ▸ hr)
  · by_cases hpx : p = x
    · subst hpx
      simp only [fupd_apply, if_neg hpy, eq_self_iff_true, if_true]
      simp [List.nodup_append, hnd p, List.Disjoint]
      intro r hr hry
      exact hx (hry ▸ hr)
    · simp only [fupd_apply, if_neg hpy, if_neg hpx]
      exact hnd p

theorem nodup_removeEdge {m : Nat → List Nat} (hnd : NodupAll m) (x y : Nat) :
    NodupAll (removeEdge x y m) := by
  intro p
  unfold removeEdge
  by_cases hpy : p = y
  · subst hpy
    by_cases hpx : p = x
    · subst hpx
      simp only [fupd_apply, eq_self_iff_true, if_true]
      exact ((hnd p).erase _).erase _
    · simp only [fupd_apply, eq_self_iff_true, if_true, if_neg hpx]
      exact (hnd p).erase _
  · by_cases hpx : p = x
    · subst hpx
      simp only [fupd_apply, if_neg hpy, eq_self_iff_true, if_true]
      exact (hnd p).erase _
    · simp only [fupd_apply, if_neg hpy, if_neg hpx]
      exact hnd p

theorem subset_removeEdge (m : Nat → List Nat) (x y q : Nat) :
    removeEdge x y m q ⊆ m q := by
  unfold removeEdge
  by_cases hqy : q = y
  · subst hqy
    by_cases hqx : q = x
    · subst hqx
      simp only [fupd_apply, eq_self_iff_true, if_true]
      exact (List.erase_subset _ _).trans (List.erase_subset _ _)
    · simp only [fupd_apply, eq_self_iff_true, if_true, if_neg hqx]
      exact List.erase_subset _ _
  · by_cases hqx : q = x
    · subst hqx
      simp only [fupd_apply, if_neg hqy, eq_self_iff_true, if_true]
      exact List.erase_subset _ _
    · simp only [fupd_apply, if_neg hqy, if_neg hqx]
      exact fun _ h => h

theorem noSelf_addEdge {m : Nat → List Nat} (h : NoSelf m) {x y : Nat}
    (hxy : x ≠ y) : NoSelf (addEdge x y m) := by
  intro p hp
  rw [mem_addEdge] at hp
  rcases hp with hp | ⟨rfl, rfl⟩ | ⟨rfl, rfl⟩
  · exact h p hp
  · exact hxy rfl
  · exact hxy rfl

theorem noSelf_of_subset {m m' : Nat → List Nat} (hs : ∀ p, m' p ⊆ m p)
    (h : NoSelf m) : NoSelf m' :=
  fun p hp => h p (hs p hp)

theorem noSelf_removeEdge {m : Nat → List Nat} (h : NoSelf m) (x y : Nat) :
    NoSelf (removeEdge x y m) :=
  noSelf_of_subset (subset_removeEdge m x y) h

theorem inv_cache {st : SimState} (c : PrioCache) (h : Inv st) :
    Inv { st with cache := c } :=
  ⟨h.sym, h.nodup, h.estSelf, h.attSelf, h.knownSelf, h.retrySelf⟩

theorem inv_learnStep {n a : Nat} (hna : n ≠ a) {st : SimState} (h : Inv st) :
    Inv (learnStep n a st) := by
  unfold learnStep
  split_ifs with hg
  · exact h
  · refine ⟨h.sym, h.nodup, h.estSelf, h.attSelf, ?_, h.retrySelf⟩
    intro p hp
    simp only [fupd_apply] at hp
    by_cases h1 : p = a
    · rw [if_pos h1] at hp
      rcases List.mem_append.mp hp with hp2 | hp2
      · rw [h1] at hp2
        exact h.knownSelf a hp2
      · rw [List.mem_singleton] at hp2
        exact hna (hp2.symm.trans h1)
    · rw [if_neg h1] at hp
      exact h.knownSelf p hp

theorem inv_cleanupKnown (n a : Nat) {st : SimState} (h : Inv st) :
    Inv (cleanupKnown n a st) := by
  refine ⟨h.sym, h.nodup, h.estSelf, h.attSelf, ?_, h.retrySelf⟩
  refine noSelf_of_subset (fun p r hr => ?_) h.knownSelf
  simp only [cleanupKnown, fupd_apply] at hr
  by_cases h1 : p = n
  · rw [if_pos h1] at hr
    have hr2 := List.erase_subset _ _ hr
    by_cases h2 : n = a
    · rw [if_pos h2] at hr2
      rw [h1, h2]
      exact List.erase_subset _ _ hr2
    · rw [if_neg h2] at hr2
      rw [h1]
      exact hr2
  · rw [if_neg h1] at hr
    by_cases h2 : p = a
    · rw [if_pos h2] at hr
      rw [h2]
      exact List.erase_subset _ _ hr
    · rw [if_neg h2] at hr
      exact hr

theorem inv_removeAttempt (n a : Nat) {st : SimState} (h : Inv st) :
    Inv (removeAttempt n a st) := by
  refine ⟨h.sym, h.nodup, h.estSelf, ?_, h.knownSelf, h.retrySelf⟩
  refine noSelf_of_subset (fun p r hr => ?_) h.attSelf
  simp only [removeAttempt, fupd_apply] at hr
  split_ifs at hr with h1
  · exact h1 ▸ List.erase_subset _ _ hr
  · exact hr

theorem inv_acceptStep {n a : Nat} (hna : n ≠ a) {st : SimState}
    (hn : a ∉ st.est n) (h : Inv st) : Inv (acceptStep n a st) := by
  have hn' : n ∉ st.est a := fun hmem => hn ((h.sym n a).mp hmem)
  exact ⟨sym_addEdge h.sym a n, nodup_addEdge h.nodup (Ne.symm hna) hn' hn,
    noSelf_addEdge h.estSelf (Ne.symm hna), h.attSelf, h.knownSelf, h.retrySelf⟩

theorem inv_rejectStep {n a : Nat} (hna : n ≠ a) {st : SimState} (h : Inv st) :
    Inv (rejectStep n a st) := by
  refine ⟨h.sym, h.nodup, h.estSelf, h.attSelf, h.knownSelf, ?_⟩
  intro p hp
  simp only [rejectStep, fupd_apply] at hp
  by_cases h1 : p = n
  · rw [if_pos h1] at hp
    rcases List.mem_append.mp hp with hp2 | hp2
    · rw [h1] at hp2
      exact h.retrySelf n hp2
    · rw [List.mem_singleton] at hp2
      exact hna (h1.symm.trans hp2)
  · rw [if_neg h1] at hp
    exact h.retrySelf p hp

theorem inv_replaceStep {n a lowest : Nat} (hna : n ≠ a) {st : SimState}
    (hn : a ∉ st.est n) (hla : lowest ∈ st.est a) (h : Inv st) :
    Inv (replaceStep n a lowest st) := by
  have hn' : n ∉ st.est a := fun hmem => hn ((h.sym n a).mp hmem)
  have hlne_a : lowest ≠ a := fun he => h.estSelf a (he ▸ hla)
  have hnE : n ∉ removeEdge lowest a st.est a :=
    fun hm => hn' (subset_removeEdge st.est lowest a a hm)
  have haE : a ∉ removeEdge lowest a st.est n :=
    fun hm => hn (subset_removeEdge st.est lowest a n hm)
  refine ⟨sym_addEdge (sym_removeEdge h.nodup h.sym lowest a) a n,
    nodup_addEdge (nodup_removeEdge h.nodup lowest a) (Ne.symm hna) hnE haE,
    noSelf_addEdge (noSelf_removeEdge h.estSelf lowest a) (Ne.symm hna),
    h.attSelf, ?_, h.retrySelf⟩
  intro p hp
  simp only [replaceStep, fupd_apply] at hp
  by_cases h1 : p = lowest
  · subst h1
    rw [if_pos rfl, if_neg hlne_a] at hp
    rcases List.mem_append.mp hp with hp2 | hp2
    · exact h.knownSelf p hp2
    · rw [List.mem_singleton] at hp2
      exact hlne_a hp2
  · rw [if_neg h1] at hp
    by_cases h2 : p = a
    · subst h2
      rw [if_pos rfl] at hp
      rcases List.mem_append.mp hp with hp2 | hp2
      · exact h.knownSelf p hp2
      · rw [List.mem_singleton] at hp2
        exact h1 hp2
    · rw [if_neg h2] at hp
      exact h.knownSelf p hp

theorem headD_mem {l : List Nat} (h : l ≠ []) (d : Nat) : l.headD d ∈ l := by
  cases l with
  | nil => exact absurd rfl h
  | cons x xs => simp

theorem lowestRank_mem (s : Settings) (n : Nat) {l : List Nat} (c : PrioCache)
    (hl : 0 < l.length) : (lowestRank s n l c).1 ∈ l := by
  unfold lowestRank
  rw [if_pos hl]
  split_ifs with ho
  · exact minByPrio_mem (List.ne_nil_of_length_pos hl)
  · exact headD_mem (List.ne_nil_of_length_pos hl) 0

/-- `Inv` is preserved by the resolution of a single attempt `(n → a)`,
as long as the attempt is not a self-attempt and the swarm allows at least
one connection (so that `lowest` is a genuine member of the target's list
in the preemption branch). -/
theorem inv_resolveAttempt (s : Settings) (hmp : 0 < s.maxPeers) {n a : Nat}
    (hna : n ≠ a) {st : SimState} (h : Inv st) : Inv (resolveAttempt s n a st) := by
  have h1 : Inv (learnStep n a st) := inv_learnStep hna h
  simp only [resolveAttempt]
  split_ifs with hc hacc hord hlt
  · exact inv_removeAttempt n a (inv_cleanupKnown n a (inv_cache _ h1))
  · exact inv_removeAttempt n a (inv_cleanupKnown n a
      (inv_acceptStep hna hc (inv_cache _ h1)))
  · refine inv_removeAttempt n a (inv_cleanupKnown n a
      (inv_replaceStep hna hc ?_ (inv_cache _ h1)))
    exact @lowestRank_mem s n ((learnStep n a st).est a) (learnStep n a st).cache (by omega)
  · exact inv_removeAttempt n a (inv_rejectStep hna (inv_cache _ h1))
  · exact inv_removeAttempt n a (inv_rejectStep hna (inv_cache _ h1))

theorem inv_foldResolve (s : Settings) (hmp : 0 < s.maxPeers) (n : Nat)
    (l : List Nat) : ∀ st : SimState, n ∉ l → Inv st →
      Inv (l.foldl (fun acc a => resolveAttempt s n a acc) st) := by
  induction l with
  | nil => exact fun st _ h => h
  | cons a l ih =>
    intro st hnl h
    simp only [List.foldl_cons]
    refine ih _ (fun hm => hnl (List.mem_cons_of_mem _ hm)) ?_
    have hna : n ≠ a := fun he => hnl (by rw [he]; exact List.mem_cons_self a l)
    exact inv_resolveAttempt s hmp hna h

theorem inv_resolveAttempts (s : Settings) (hmp : 0 < s.maxPeers) (n : Nat)
    {st : SimState} (h : Inv st) : Inv (resolveAttempts s n st) :=
  inv_foldResolve s hmp n (st.att n) st (h.attSelf n) h

theorem inv_samplePeer (s : Settings) (n : Nat) {st : SimState} (h : Inv st) :
    Inv (samplePeer s n st) := by
  unfold samplePeer
  split_ifs
  · exact ⟨h.sym, h.nodup, h.estSelf, h.attSelf, h.knownSelf, h.retrySelf⟩
  · exact h

theorem inv_stepPeer (s : Settings) (hmp : 0 < s.maxPeers) (n : Nat)
    {st : SimState} (h : Inv st) : Inv (stepPeer s st n) :=
  inv_samplePeer s n (inv_resolveAttempts s hmp n h)

theorem inv_resolvePhase (s : Settings) (hmp : 0 < s.maxPeers)
    {st : SimState} (h : Inv st) : Inv (resolvePhase s st) := by
  unfold resolvePhase
  generalize st.swarm = l
  induction l generalizing st with
  | nil => exact h
  | cons p l ih => exact ih (inv_stepPeer s hmp p h)

theorem inv_beginTick {st : SimState} (h : Inv st) : Inv (beginTick st) :=
  ⟨h.sym, h.nodup, h.estSelf, h.attSelf, h.knownSelf, h.retrySelf⟩

theorem inv_connectLoop (s : Settings) (pick : List Nat → Nat) (n : Nat) :
    ∀ (fuel : Nat) (st : SimState), Inv st → Inv (connectLoop s pick n fuel st) := by
  intro fuel
  induction fuel with
  | zero => exact fun st h => h
  | succ fuel ih =>
    intro st h
    unfold connectLoop
    split_ifs with hg
    · rcases hpt : pickTarget s pick n (st.known n) st.cache with ⟨peer, rest, c'⟩
      simp only [hpt]
      refine ih _ ?_
      have hpm : peer ∈ st.known n := by
        have hx := pickTarget_mem s pick n st.cache hg.2.2
        rw [hpt] at hx
        exact hx
      have hrest : rest ⊆ st.known n := by
        have hx := pickTarget_subset s pick n (st.known n) st.cache
        rw [hpt] at hx
        exact hx
      have hpn : peer ≠ n := fun he => h.knownSelf n (he ▸ hpm)
      refine ⟨h.sym, h.nodup, h.estSelf, ?_, ?_, h.retrySelf⟩
      · intro p hp
        simp only [fupd_apply] at hp
        by_cases h1 : p = n
        · rw [if_pos h1] at hp
          rcases List.mem_append.mp hp with hp2 | hp2
          · rw [h1] at hp2
            exact h.attSelf n hp2
          · rw [List.mem_singleton] at hp2
            exact hpn (hp2.symm.trans h1)
        · rw [if_neg h1] at hp
          exact h.attSelf p hp
      · intro p hp
        simp only [fupd_apply] at hp
        by_cases h1 : p = n
        · rw [if_pos h1] at hp
          exact h.knownSelf n (hrest (h1 ▸ hp))
        · rw [if_neg h1] at hp
          exact h.knownSelf p hp
    · exact h

theorem inv_maybeConnect (s : Settings) (pick : List Nat → Nat) (n : Nat)
    {st : SimState} (h : Inv st) : Inv (maybeConnectMorePeers s pick n st) := by
  unfold maybeConnectMorePeers
  split_ifs with hsw
  · refine inv_connectLoop s pick n _ _ ?_
    refine ⟨h.sym, h.nodup, h.estSelf, h.attSelf, ?_, ?_⟩
    · intro p hp
      simp only [fupd_apply] at hp
      by_cases h1 : p = n
      · rw [if_pos h1] at hp
        rw [h1] at hp
        exact h.retrySelf n hp
      · rw [if_neg h1] at hp
        exact h.knownSelf p hp
    · intro p hp
      simp only [fupd_apply] at hp
      by_cases h1 : p = n
      · rw [if_pos h1] at hp
        simp at hp
      · rw [if_neg h1] at hp
        exact h.retrySelf p hp
  · exact inv_connectLoop s pick n _ _ h

theorem inv_schedulePhase (s : Settings) (pick : List Nat → Nat)
    {st : SimState} (h : Inv st) : Inv (schedulePhase s pick st) := by
  unfold schedulePhase
  generalize st.swarm = l
  induction l generalizing st with
  | nil => exact h
  | cons p l ih => exact ih (inv_maybeConnect s pick p h)

theorem inv_step (s : Settings) (pick : List Nat → Nat) (hmp : 0 < s.maxPeers)
    {st : SimState} (h : Inv st) : Inv (step s pick st) :=
  inv_schedulePhase s pick (inv_resolvePhase s hmp (inv_beginTick h))

theorem noSelf_foldAppend (nn : Nat) :
    ∀ (L : List Nat) (m : Nat → List Nat), nn ∉ L → NoSelf m →
      NoSelf (L.foldl (fun m p => fupd m p (m p ++ [nn])) m) := by
  intro L
  induction L with
  | nil => exact fun m _ h => h
  | cons p L ih =>
    intro m hnL h
    simp only [List.foldl_cons]
    refine ih _ (fun hm => hnL (List.mem_cons_of_mem _ hm)) ?_
    intro q hq
    simp only [fupd_apply] at hq
    by_cases h1 : q = p
    · rw [if_pos h1] at hq
      rcases List.mem_append.mp hq with hq2 | hq2
      · rw [h1] at hq2
        exact h p hq2
      · rw [List.mem_singleton] at hq2
        refine hnL ?_
        rw [← hq2, h1]
        exact List.mem_cons_self p L
    · rw [if_neg h1] at hq
      exact h q hq

theorem inv_addNewPeer (s : Settings) (pick : List Nat → Nat)
    (shuffle : List Nat → List Nat) (hsh : ∀ l, shuffle l ⊆ l) {n : Nat}
    {st : SimState} (hn : n ∉ st.swarm) (h : Inv st) :
    Inv (addNewPeer s pick shuffle n st) := by
  simp only [addNewPeer]
  refine inv_maybeConnect s pick n ?_
  split_ifs with hg
  · refine ⟨h.sym, h.nodup, h.estSelf, h.attSelf, ?_, ?_⟩
    · refine noSelf_foldAppend n st.swarm _ hn ?_
      intro p hp
      simp only [fupd_apply] at hp
      by_cases h1 : p = n
      · rw [if_pos h1] at hp
        rw [h1] at hp
        exact hn hp
      · rw [if_neg h1] at hp
        exact h.knownSelf p hp
    · intro p hp
      simp only [fupd_apply] at hp
      by_cases h1 : p = n
      · rw [if_pos h1] at hp
        simp at hp
      · rw [if_neg h1] at hp
        exact h.retrySelf p hp
  · refine ⟨h.sym, h.nodup, h.estSelf, h.attSelf, ?_, ?_⟩
    · intro p hp
      simp only [fupd_apply] at hp
      by_cases h1 : p = n
      · rw [if_pos h1] at hp
        rw [h1] at hp
        exact hn (hsh st.swarm (List.take_subset _ _ hp))
      · rw [if_neg h1] at hp
        exact h.knownSelf p hp
    · intro p hp
      simp only [fupd_apply] at hp
      by_cases h1 : p = n
      · rw [if_pos h1] at hp
        simp at hp
      · rw [if_neg h1] at hp
        exact h.retrySelf p hp

theorem inv_mainIteration (s : Settings) (pick : List Nat → Nat)
    (shuffle : List Nat → List Nat) (hmp : 0 < s.maxPeers)
    (hsh : ∀ l, shuffle l ⊆ l) (i : Nat) {st : SimState}
    (hwf : AttWF st) (h : Inv st) : Inv (mainIteration s pick shuffle i st) := by
  simp only [mainIteration]
  have h1 : Inv (step s pick st) := inv_step s pick hmp h
  have hwf1 : AttWF (step s pick st) := attWF_step s pick st hwf
  split_ifs with hc
  · have hnot : (step s pick st).swarm.length ∉ (step s pick st).swarm :=
      length_notin_self hwf1.2
    have h2 := inv_addNewPeer s pick shuffle hsh hnot h1
    exact ⟨h2.sym, h2.nodup, h2.estSelf, h2.attSelf, h2.knownSelf, h2.retrySelf⟩
  · exact ⟨h1.sym, h1.nodup, h1.estSelf, h1.attSelf, h1.knownSelf, h1.retrySelf⟩

theorem inv_initState : Inv initState :=
  ⟨fun x y => by simp [initState], fun _ => List.nodup_nil,
   fun p h => absurd h (List.not_mem_nil p), fun p h => absurd h (List.not_mem_nil p),
   fun p h => absurd h (List.not_mem_nil p), fun p h => absurd h (List.not_mem_nil p)⟩

/-- The structural invariant holds after every main-loop iteration. -/
theorem inv_simulate (s : Settings) (pick : List Nat → Nat)
    (shuffle : List Nat → List Nat) (hmp : 0 < s.maxPeers)
    (hsh : ∀ l, shuffle l ⊆ l) (k : Nat) : Inv (simulate s pick shuffle k) := by
  induction k with
  | zero => exact inv_initState
  | succ k ih =>
    exact inv_mainIteration s pick shuffle hmp hsh k (attWF_simulate s pick shuffle k) ih

/-! ## The degenerate configuration `max_peers = 0`: nothing is ever dialed -/

theorem connectLoop_mp0 {s : Settings} (h : s.maxPeers = 0) (pick : List Nat → Nat)
    (n fuel : Nat) (st : SimState) : connectLoop s pick n fuel st = st := by
  cases fuel with
  | zero => rfl
  | succ fuel =>
    unfold connectLoop
    rw [if_neg]
    rintro ⟨h1, -, -⟩
    omega

theorem maybeConnect_mp0 {s : Settings} (h : s.maxPeers = 0) (pick : List Nat → Nat)
    (n : Nat) (st : SimState) :
    (maybeConnectMorePeers s pick n st).att = st.att
    ∧ (maybeConnectMorePeers s pick n st).est = st.est := by
  unfold maybeConnectMorePeers
  split_ifs with hsw <;> rw [connectLoop_mp0 h] <;> exact ⟨rfl, rfl⟩

/-- No peer ever has an established connection or an outstanding attempt. -/
def EmptyNet (st : SimState) : Prop := ∀ p, st.att p = [] ∧ st.est p = []

theorem emptyNet_stepPeer {s : Settings} {st : SimState} (h : EmptyNet st) (n : Nat) :
    EmptyNet (stepPeer s st n) := by
  unfold stepPeer resolveAttempts
  rw [(h n).1]
  simp only [List.foldl_nil]
  intro p
  rcases samplePeer_others s n st with ⟨he, ha, -⟩
  rw [he, ha]
  exact h p

theorem emptyNet_fold_stepPeer {s : Settings} (l : List Nat) :
    ∀ {st : SimState}, EmptyNet st → EmptyNet (l.foldl (stepPeer s) st) := by
  induction l with
  | nil => exact fun h => h
  | cons p l ih => exact fun h => ih (emptyNet_stepPeer h p)

theorem emptyNet_fold_mc {s : Settings} (h0 : s.maxPeers = 0) (pick : List Nat → Nat)
    (l : List Nat) : ∀ {st : SimState}, EmptyNet st →
      EmptyNet (l.foldl (fun acc n => maybeConnectMorePeers s pick n acc) st) := by
  induction l with
  | nil => exact fun h => h
  | cons p l ih =>
    intro st h
    simp only [List.foldl_cons]
    refine ih ?_
    intro q
    rcases maybeConnect_mp0 h0 pick p st with ⟨ha, he⟩
    rw [ha, he]
    exact h q

theorem emptyNet_step {s : Settings} (h0 : s.maxPeers = 0) (pick : List Nat → Nat)
    {st : SimState} (h : EmptyNet st) : EmptyNet (step s pick st) := by
  unfold step schedulePhase resolvePhase
  exact emptyNet_fold_mc h0 pick _ (emptyNet_fold_stepPeer _ (fun p => h p))

theorem emptyNet_addNewPeer {s : Settings} (h0 : s.maxPeers = 0)
    (pick : List Nat → Nat) (shuffle : List Nat → List Nat) (n : Nat)
    {st : SimState} (h : EmptyNet st) : EmptyNet (addNewPeer s pick shuffle n st) := by
  simp only [addNewPeer]
  intro q
  constructor
  · rw [(maybeConnect_mp0 h0 pick n _).1]
    split_ifs <;> exact (h q).1
  · rw [(maybeConnect_mp0 h0 pick n _).2]
    split_ifs <;> exact (h q).2

theorem emptyNet_mainIteration {s : Settings} (h0 : s.maxPeers = 0)
    (pick : List Nat → Nat) (shuffle : List Nat → List Nat) (i : Nat)
    {st : SimState} (h : EmptyNet st) :
    EmptyNet (mainIteration s pick shuffle i st) := by
  simp only [mainIteration]
  have h1 := emptyNet_step h0 pick h
  split_ifs with hc
  · exact fun p => emptyNet_addNewPeer h0 pick shuffle _ h1 p
  · exact fun p => h1 p

theorem emptyNet_simulate {s : Settings} (h0 : s.maxPeers = 0)
    (pick : List Nat → Nat) (shuffle : List Nat → List Nat) (k : Nat) :
    EmptyNet (simulate s pick shuffle k) := by
  induction k with
  | zero => exact fun p => ⟨rfl, rfl⟩
  | succ k ih => exact emptyNet_mainIteration h0 pick shuffle k ih

/-! ## Further helpers for the claim-level theorems -/

theorem lowestRank_spec {c : PrioCache} (hc : CacheValid c) (s : Settings)
    (n : Nat) (l : List Nat) (ho : s.usePeerOrdering = true) (hl : 0 < l.length) :
    (lowestRank s n l c).1 = minKey n l ∧ CacheValid (lowestRank s n l c).2 := by
  unfold lowestRank
  rw [if_pos hl, if_pos ho]
  exact minByPrio_spec hc n l

theorem resolveAttempt_repls_noOrdering (s : Settings) (n a : Nat) (st : SimState)
    (h : s.usePeerOrdering = false) :
    (resolveAttempt s n a st).replacementsPerTick = st.replacementsPerTick := by
  simp only [resolveAttempt]
  split_ifs with h1 h2 h3 h4
  · simp [removeAttempt, cleanupKnown, learnStep_repls]
  · simp [removeAttempt, cleanupKnown, acceptStep, learnStep_repls]
  · rw [h] at h3
    exact absurd h3 (by simp)
  · rw [h] at h3
    exact absurd h3 (by simp)
  · simp [removeAttempt, rejectStep, learnStep_repls]

theorem foldl_resolve_startup (s : Settings) (n : Nat) (l : List Nat) (st : SimState) :
    (l.foldl (fun acc a => resolveAttempt s n a acc) st).startup = st.startup := by
  induction l generalizing st with
  | nil => rfl
  | cons a l ih => simp only [List.foldl_cons]; rw [ih, resolveAttempt_startup]

theorem foldAppend_notin (nn : Nat) (L : List Nat) :
    ∀ (m : Nat → List Nat) (q : Nat), q ∉ L →
      (L.foldl (fun m p => fupd m p (m p ++ [nn])) m) q = m q := by
  induction L with
  | nil => intro m q _; rfl
  | cons p L ih =>
    intro m q hq
    simp only [List.foldl_cons]
    rw [ih _ _ (fun hm => hq (List.mem_cons_of_mem _ hm))]
    rw [fupd_apply, if_neg (fun he => hq (by rw [he]; exact List.mem_cons_self p L))]

theorem resolveAttempts_tick (s : Settings) (n : Nat) (st : SimState) :
    (resolveAttempts s n st).tick = st.tick := by
  unfold resolveAttempts
  exact foldl_resolve_tick s n _ st

theorem resolveAttempts_joinTime (s : Settings) (n : Nat) (st : SimState) :
    (resolveAttempts s n st).joinTime = st.joinTime := by
  unfold resolveAttempts
  exact foldl_resolve_joinTime s n _ st

theorem resolveAttempts_startup (s : Settings) (n : Nat) (st : SimState) :
    (resolveAttempts s n st).startup = st.startup := by
  unfold resolveAttempts
  exact foldl_resolve_startup s n _ st

/-! ## The claims -/

/-- Claim C1 (corrected): with peer ordering on and the target `a` at
capacity, provided the attempt `(n, a)` is not between already-connected
peers (the branch the original claim overlooks), a replacement happens iff
`prio lowest a < prio n a` where `lowest` is the first `prio n ·`-minimal
member of the target list; on replacement the edge `(lowest, a)` is removed
symmetrically, `lowest` re-enters both known sets, the edge `(n, a)` is
created symmetrically and the replacement counter is bumped; on the failed
comparison nothing about the graph or the counter changes; and with ordering
off the replacement counter never moves. -/
theorem claim_C1 (s : Settings) (n a : Nat) (st : SimState)
    (hord : s.usePeerOrdering = true)
    (hmp : 0 < s.maxPeers)
    (hfull : s.maxPeers ≤ (st.est a).length)
    (hna : n ≠ a)
    (hnc : a ∉ st.est n)
    (hnm : n ∉ st.est a)
    (haa : a ∉ st.est a)
    (hcv : CacheValid st.cache) :
    (prio (minKey n (st.est a)) a < prio n a →
       (resolveAttempt s n a st).est
           = addEdge a n (removeEdge (minKey n (st.est a)) a st.est)
       ∧ minKey n (st.est a) ∈ (resolveAttempt s n a st).known a
       ∧ a ∈ (resolveAttempt s n a st).known (minKey n (st.est a))
       ∧ (resolveAttempt s n a st).replacementsPerTick
           = incLast st.replacementsPerTick)
    ∧ (¬ prio (minKey n (st.est a)) a < prio n a →
       (resolveAttempt s n a st).est = st.est
       ∧ (resolveAttempt s n a st).replacementsPerTick = st.replacementsPerTick)
    ∧ (∀ (t : Settings) (m b : Nat) (u : SimState), t.usePeerOrdering = false →
       (resolveAttempt t m b u).replacementsPerTick = u.replacementsPerTick) := by
  have hlen : 0 < (st.est a).length := lt_of_lt_of_le hmp hfull
  have hlmem : minKey n (st.est a) ∈ st.est a :=
    minKey_mem (List.ne_nil_of_length_pos hlen)
  have hlna : minKey n (st.est a) ≠ a := fun he => haa (by rwa [he] at hlmem)
  have hlnn : minKey n (st.est a) ≠ n := fun he => hnm (by rwa [he] at hlmem)
  have han : a ≠ n := Ne.symm hna
  have haL : a ≠ minKey n (st.est a) := Ne.symm hlna
  obtain ⟨hlr1, hlr2⟩ := lowestRank_spec hcv s n (st.est a) hord hlen
  have hpl := prioC_spec hlr2 (minKey n (st.est a)) a
  have hpn := prioC_spec hpl.2 n a
  refine ⟨?_, ?_, fun t m b u h => resolveAttempt_repls_noOrdering t m b u h⟩
  · simp only [resolveAttempt, learnStep_est, learnStep_cache]
    rw [if_neg hnc, if_neg (by omega : ¬ (st.est a).length < s.maxPeers),
      if_pos hord, hlr1, hpl.1, hpn.1]
    intro hlt
    rw [if_pos hlt]
    refine ⟨?_, ?_, ?_, ?_⟩
    · simp [removeAttempt, cleanupKnown, replaceStep, learnStep_est]
    · simp only [removeAttempt, cleanupKnown, replaceStep, fupd_apply,
        if_neg han, eq_self_iff_true, if_true, if_neg haL]
      rw [List.mem_erase_of_ne hlnn]
      simp
    · simp only [removeAttempt, cleanupKnown, replaceStep, fupd_apply,
        if_neg hlnn, if_neg hlna, eq_self_iff_true, if_true]
      simp
    · simp [removeAttempt, cleanupKnown, replaceStep, learnStep_repls]
  · simp only [resolveAttempt, learnStep_est, learnStep_cache]
    rw [if_neg hnc, if_neg (by omega : ¬ (st.est a).length < s.maxPeers),
      if_pos hord, hlr1, hpl.1, hpn.1]
    intro hge
    rw [if_neg hge]
    exact ⟨by simp [removeAttempt, rejectStep, learnStep_est],
           by simp [removeAttempt, rejectStep, learnStep_repls]⟩

/-- Witness for claim C1 at a concrete configuration: one peer slot, target
`1` already holding `[2]`, challenger `0`, empty cache. -/
theorem claim_C1_witness :
    0 < (⟨1, 0, 0, 1, true, true⟩ : Settings).maxPeers
    ∧ (⟨1, 0, 0, 1, true, true⟩ : Settings).maxPeers
        ≤ (({ initState with est := fun p => if p = 1 then [2] else [] } : SimState).est 1).length
    ∧ ((prio (minKey 0 (({ initState with est := fun p => if p = 1 then [2] else [] } : SimState).est 1)) 1 < prio 0 1 →
       (resolveAttempt ⟨1, 0, 0, 1, true, true⟩ 0 1 { initState with est := fun p => if p = 1 then [2] else [] }).est
           = addEdge 1 0 (removeEdge (minKey 0 (({ initState with est := fun p => if p = 1 then [2] else [] } : SimState).est 1)) 1 ({ initState with est := fun p => if p = 1 then [2] else [] } : SimState).est)
       ∧ minKey 0 (({ initState with est := fun p => if p = 1 then [2] else [] } : SimState).est 1)
           ∈ (resolveAttempt ⟨1, 0, 0, 1, true, true⟩ 0 1 { initState with est := fun p => if p = 1 then [2] else [] }).known 1
       ∧ 1 ∈ (resolveAttempt ⟨1, 0, 0, 1, true, true⟩ 0 1 { initState with est := fun p => if p = 1 then [2] else [] }).known (minKey 0 (({ initState with est := fun p => if p = 1 then [2] else [] } : SimState).est 1))
       ∧ (resolveAttempt ⟨1, 0, 0, 1, true, true⟩ 0 1 { initState with est := fun p => if p = 1 then [2] else [] }).replacementsPerTick
           = incLast ({ initState with est := fun p => if p = 1 then [2] else [] } : SimState).replacementsPerTick)
    ∧ (¬ prio (minKey 0 (({ initState with est := fun p => if p = 1 then [2] else [] } : SimState).est 1)) 1 < prio 0 1 →
       (resolveAttempt ⟨1, 0, 0, 1, true, true⟩ 0 1 { initState with est := fun p => if p = 1 then [2] else [] }).est
           = ({ initState with est := fun p => if p = 1 then [2] else [] } : SimState).est
       ∧ (resolveAttempt ⟨1, 0, 0, 1, true, true⟩ 0 1 { initState with est := fun p => if p = 1 then [2] else [] }).replacementsPerTick
           = ({ initState with est := fun p => if p = 1 then [2] else [] } : SimState).replacementsPerTick)
    ∧ (∀ (t : Settings) (m b : Nat) (u : SimState), t.usePeerOrdering = false →
       (resolveAttempt t m b u).replacementsPerTick = u.replacementsPerTick)) :=
  ⟨by decide, by decide,
   claim_C1 ⟨1, 0, 0, 1, true, true⟩ 0 1
     { initState with est := fun p => if p = 1 then [2] else [] }
     rfl (by decide) (by decide) (by decide) (by decide) (by decide) (by decide)
     (fun p v h => absurd h (List.not_mem_nil (p, v)))⟩

/-- Counter to claim C1 as stated: at a state reached by the program (ten
main-loop iterations at `max_peers = 4`, `half_open_limit = 1`,
`swarm_size = 5`, then the resolution turns of peers `0..3` of the next
tick), the outstanding attempt `(4, 3)` finds the target full and the
claimed preemption condition true, yet resolving it performs no
replacement, because `3` already sits in the established set of `4`. -/
theorem claim_C1_counterexample :
    (fun st =>
      (⟨4, 5, 40, 1, true, true⟩ : Settings).usePeerOrdering = true
      ∧ (⟨4, 5, 40, 1, true, true⟩ : Settings).maxPeers ≤ (st.est 3).length
      ∧ st.att 4 = [3]
      ∧ 3 ∈ st.est 4
      ∧ prio (minKey 4 (st.est 3)) 3 < prio 4 3
      ∧ (resolveAttempt ⟨4, 5, 40, 1, true, true⟩ 4 3 st).replacementsPerTick
          = st.replacementsPerTick)
    ([0, 1, 2, 3].foldl (stepPeer ⟨4, 5, 40, 1, true, true⟩)
      (beginTick (simulate ⟨4, 5, 40, 1, true, true⟩ (fun _ => 0) id 10))) := by
  decide

/-- Claim C2 (corrected): the bound `|est| + |att| ≤ max_peers` fails (a
peer keeps accepting incoming dials with no regard to its own capacity);
what does hold after every iteration is that attempts stay within capacity
whenever the established set alone is within capacity:
`|est| + |att| ≤ max max_peers |est|`. -/
theorem claim_C2 (s : Settings) (pick : List Nat → Nat)
    (shuffle : List Nat → List Nat) (k : Nat) (p : Nat) :
    ((simulate s pick shuffle k).est p).length
      + ((simulate s pick shuffle k).att p).length
      ≤ max s.maxPeers ((simulate s pick shuffle k).est p).length := by
  cases k with
  | zero => simp [simulate, initState]
  | succ k =>
    exact mainIteration_estatt s pick shuffle k _ (attWF_simulate s pick shuffle k) p

/-- Counter to claim C2 as stated: after seventeen main-loop iterations at
`max_peers = 5`, `half_open_limit = 2`, `swarm_size = 8`, peer `6` holds six
established connections, exceeding `max_peers`. -/
theorem claim_C2_counterexample :
    (fun st => (⟨5, 8, 40, 2, true, true⟩ : Settings).maxPeers
        < (st.est 6).length + (st.att 6).length)
    (simulate ⟨5, 8, 40, 2, true, true⟩ (fun _ => 0) id 17) := by
  decide

/-- Claim C3 (confirmed): after every main-loop iteration the established
relation is symmetric and irreflexive, and no peer holds itself in its own
attempt set, for every oracle whose shuffle returns a sublist of its
input. -/
theorem claim_C3 (s : Settings) (pick : List Nat → Nat)
    (shuffle : List Nat → List Nat) (hsh : ∀ l, shuffle l ⊆ l) (k : Nat) :
    (∀ x y, x ∈ (simulate s pick shuffle k).est y ↔ y ∈ (simulate s pick shuffle k).est x)
    ∧ (∀ p, p ∉ (simulate s pick shuffle k).est p)
    ∧ (∀ p, p ∉ (simulate s pick shuffle k).att p) := by
  rcases Nat.eq_zero_or_pos s.maxPeers with h0 | hpos
  · have hm := emptyNet_simulate h0 pick shuffle k
    refine ⟨fun x y => ?_, fun p => ?_, fun p => ?_⟩
    · rw [(hm y).2, (hm x).2]
      simp
    · rw [(hm p).2]
      exact List.not_mem_nil p
    · rw [(hm p).1]
      exact List.not_mem_nil p
  · have h := inv_simulate s pick shuffle hpos hsh k
    exact ⟨h.sym, h.estSelf, h.attSelf⟩

/-- Witness for claim C3 with the identity shuffle after one iteration. -/
theorem claim_C3_witness :
    (∀ l : List Nat, id l ⊆ l)
    ∧ ((∀ x y, x ∈ (simulate ⟨1, 1, 1, 1, true, true⟩ (fun _ => 0) id 1).est y
          ↔ y ∈ (simulate ⟨1, 1, 1, 1, true, true⟩ (fun _ => 0) id 1).est x)
       ∧ (∀ p, p ∉ (simulate ⟨1, 1, 1, 1, true, true⟩ (fun _ => 0) id 1).est p)
       ∧ (∀ p, p ∉ (simulate ⟨1, 1, 1, 1, true, true⟩ (fun _ => 0) id 1).att p)) :=
  ⟨fun l => List.Subset.refl l,
   claim_C3 ⟨1, 1, 1, 1, true, true⟩ (fun _ => 0) id (fun l => List.Subset.refl l) 1⟩

/-- Claim C4 (corrected): each resolution of an attempt `(n, a)` either
rejects it, appending `a` to the retry set of `n` exactly once and bumping
the reject counter, or leaves the retry set of `n` and the reject counter
exactly as they were, and resolutions never touch the retry set of any
other peer; the further original conjunct that known and retry sets never
overlap is refuted by the counterexample. -/
theorem claim_C4 (s : Settings) (n a : Nat) (st : SimState) :
    (((resolveAttempt s n a st).retry n = st.retry n ++ [a]
        ∧ (resolveAttempt s n a st).rejectsPerTick = incLast st.rejectsPerTick)
      ∨ ((resolveAttempt s n a st).retry n = st.retry n
        ∧ (resolveAttempt s n a st).rejectsPerTick = st.rejectsPerTick))
    ∧ (∀ q, q ≠ n → (resolveAttempt s n a st).retry q = st.retry q) := by
  constructor
  · simp only [resolveAttempt]
    split_ifs
    · right
      exact ⟨by simp [removeAttempt, cleanupKnown, learnStep_retry],
             by simp [removeAttempt, cleanupKnown, learnStep_rejects]⟩
    · right
      exact ⟨by simp [removeAttempt, cleanupKnown, acceptStep, learnStep_retry],
             by simp [removeAttempt, cleanupKnown, acceptStep, learnStep_rejects]⟩
    · right
      exact ⟨by simp [removeAttempt, cleanupKnown, replaceStep, learnStep_retry],
             by simp [removeAttempt, cleanupKnown, replaceStep, learnStep_rejects]⟩
    · left
      exact ⟨by simp [removeAttempt, rejectStep, fupd_apply, learnStep_retry],
             by simp [removeAttempt, rejectStep, learnStep_rejects]⟩
    · left
      exact ⟨by simp [removeAttempt, rejectStep, fupd_apply, learnStep_retry],
             by simp [removeAttempt, rejectStep, learnStep_rejects]⟩
  · intro q hq
    simp only [resolveAttempt]
    split_ifs
    · simp [removeAttempt, cleanupKnown, learnStep_retry]
    · simp [removeAttempt, cleanupKnown, acceptStep, learnStep_retry]
    · simp [removeAttempt, cleanupKnown, replaceStep, learnStep_retry]
    · simp [removeAttempt, rejectStep, fupd_apply, hq, learnStep_retry]
    · simp [removeAttempt, rejectStep, fupd_apply, hq, learnStep_retry]

/-- Witness for claim C4: resolving the attempt `(1, 2)` from the initial
state leaves the retry set of peer `0` untouched. -/
theorem claim_C4_witness :
    ((0 : Nat) ≠ 1)
    ∧ (resolveAttempt ⟨1, 1, 1, 1, true, true⟩ 1 2 initState).retry 0
        = initState.retry 0 :=
  ⟨by decide, (claim_C4 ⟨1, 1, 1, 1, true, true⟩ 1 2 initState).2 0 (by decide)⟩

/-- Counter to claim C4 as stated: after twenty-four main-loop iterations at
`max_peers = 3`, `half_open_limit = 3`, `swarm_size = 12`, peer `2` sits in
both the known set and the retry set of peer `0` at once. -/
theorem claim_C4_counterexample :
    (fun st => 2 ∈ st.known 0 ∧ 2 ∈ st.retry 0)
    (simulate ⟨3, 12, 40, 3, true, true⟩ (fun _ => 0) id 24) := by
  decide

/-- Claim C5 (code bug): the ranking is not collision-free: the pairs
`{1, 122}` and `{11, 22}` are distinct yet hash the same digit string
`"1122"`, because the priority input concatenates the two decimal
representations with no separator. -/
theorem claim_C5 :
    prio 1 122 = prio 11 22
    ∧ ((1, 122) : Nat × Nat) ≠ (11, 22)
    ∧ ((1, 122) : Nat × Nat) ≠ (22, 11) := by
  refine ⟨?_, by decide, by decide⟩
  show sha1Nat (prioInput 1 122) = sha1Nat (prioInput 11 22)
  exact congrArg sha1Nat (by decide)

/-- Claim C6 (confirmed): the pure priority is argument-order independent,
and the memoized priority of the program returns exactly the pure priority
whenever every cache entry is honest, keeps the cache honest, and thus
returns the identical value on a repeated call. -/
theorem claim_C6 (a b : Nat) :
    prio a b = prio b a
    ∧ ∀ c : PrioCache, CacheValid c →
        (prioC c a b).1 = prio a b
        ∧ CacheValid (prioC c a b).2
        ∧ (prioC (prioC c a b).2 a b).1 = (prioC c a b).1 := by
  refine ⟨prio_symm a b, fun c hc => ?_⟩
  obtain ⟨h1, h2⟩ := prioC_spec hc a b
  refine ⟨h1, h2, ?_⟩
  rw [(prioC_spec h2 a b).1, h1]

/-- Witness for claim C6 on the pair `(3, 5)` with the empty cache. -/
theorem claim_C6_witness :
    CacheValid []
    ∧ ((prioC [] 3 5).1 = prio 3 5
       ∧ CacheValid (prioC [] 3 5).2
       ∧ (prioC (prioC [] 3 5).2 3 5).1 = (prioC [] 3 5).1) :=
  ⟨fun p v h => absurd h (List.not_mem_nil (p, v)),
   (claim_C6 3 5).2 [] (fun p v h => absurd h (List.not_mem_nil (p, v)))⟩

/-- Claim C7 (confirmed): after every main-loop iteration every peer has at
most `half_open_limit` outstanding attempts. -/
theorem claim_C7 (s : Settings) (pick : List Nat → Nat)
    (shuffle : List Nat → List Nat) (k : Nat) (p : Nat) :
    ((simulate s pick shuffle k).att p).length ≤ s.halfOpenLimit := by
  cases k with
  | zero => simp [simulate, initState]
  | succ k =>
    exact mainIteration_att_le s pick shuffle k _ (attWF_simulate s pick shuffle k) p

/-- Claim C8 (corrected): sampling does not wait for the whole resolution
phase: each peer is sampled immediately after its own attempts resolve,
recording into the bucket `tick - join_time` its established degree at that
moment of the phase (later turns of the same tick can still change it), and
peers below the `max_peers` id threshold are never sampled. -/
theorem claim_C8 (s : Settings) (st : SimState) (n : Nat) :
    (s.maxPeers ≤ n →
      (stepPeer s st n).startup
        = recordSample (st.tick - st.joinTime n)
            ((resolveAttempts s n st).est n).length st.startup)
    ∧ (n < s.maxPeers → (stepPeer s st n).startup = st.startup) := by
  constructor
  · intro hn
    simp only [stepPeer, samplePeer, if_pos hn, resolveAttempts_tick,
      resolveAttempts_joinTime, resolveAttempts_startup]
  · intro hn
    simp only [stepPeer, samplePeer, if_neg (by omega : ¬ s.maxPeers ≤ n),
      resolveAttempts_startup]

/-- Witness for claim C8: the resolution turn of peer `2` from the initial
state with one peer slot records a sample. -/
theorem claim_C8_witness :
    (⟨1, 1, 1, 1, true, true⟩ : Settings).maxPeers ≤ 2
    ∧ (stepPeer ⟨1, 1, 1, 1, true, true⟩ initState 2).startup
        = recordSample (initState.tick - initState.joinTime 2)
            ((resolveAttempts ⟨1, 1, 1, 1, true, true⟩ 2 initState).est 2).length
            initState.startup :=
  ⟨by decide, (claim_C8 ⟨1, 1, 1, 1, true, true⟩ initState 2).1 (by decide)⟩

/-- Counter to claim C8 as stated: at `max_peers = 1`, `half_open_limit = 1`,
`swarm_size = 4`, in the resolution phase of the eighth tick the bucket of
peer `2` receives the value `0`, while the established degree of peer `2`
after the whole resolution phase is `1`: the sample was taken mid-phase and
a later turn of the same tick changed the degree. -/
theorem claim_C8_counterexample :
    (fun st =>
      (fun rp =>
        (rp.startup.getD (rp.tick - rp.joinTime 2) []).getLast? = some 0
        ∧ (rp.est 2).length = 1)
      (resolvePhase ⟨1, 4, 40, 1, true, true⟩ (beginTick st)))
    (simulate ⟨1, 4, 40, 1, true, true⟩ (fun _ => 0) id 7) := by
  decide

/-- Claim C9 (confirmed): the percentile helper takes the middle element on
an odd-length list, averages the two central elements on an even-length
list, and returns nothing on the empty list. -/
theorem claim_C9 (p : ℚ) :
    percentile [1, 2, 3, 4, 5] (1/2) = some 3
    ∧ percentile [1, 2, 3, 4] (1/2) = some (5/2)
    ∧ percentile [] p = none := by
  refine ⟨?_, ?_, rfl⟩
  · norm_num [percentile]
    rw [show (Rat.floor 2).toNat = 2 from by decide]
    simp
  · have hc : ⌈(3/2 : ℚ)⌉ = 2 := by
      rw [Int.ceil_eq_iff] <;> norm_num
    norm_num [percentile, hc]
    simp only [show Int.toNat 2 = 2 from rfl]
    norm_num
    simp

/-- Claim C10 (confirmed): joining under global knowledge immediately runs
the scheduler for the new peer: a fresh peer ends its join with exactly
`min (min max_peers half_open_limit) |swarm|` outstanding attempts, its
join tick recorded, itself appended to the swarm and its retry set
empty. -/
theorem claim_C10 (s : Settings) (pick : List Nat → Nat)
    (shuffle : List Nat → List Nat) (n : Nat) (st : SimState)
    (hg : s.useGlobalKnowledge = true) (hn : n ∉ st.swarm)
    (hest : st.est n = []) (hatt : st.att n = []) :
    ((addNewPeer s pick shuffle n st).att n).length
      = min (min s.maxPeers s.halfOpenLimit) st.swarm.length
    ∧ (addNewPeer s pick shuffle n st).swarm = st.swarm ++ [n]
    ∧ (addNewPeer s pick shuffle n st).joinTime n = st.tick
    ∧ (addNewPeer s pick shuffle n st).retry n = [] := by
  simp only [addNewPeer, hg, eq_self_iff_true, if_true]
  have hkn : (st.swarm.foldl (fun m p => fupd m p (m p ++ [n]))
      (fupd st.known n st.swarm)) n = st.swarm := by
    rw [foldAppend_notin n st.swarm _ n hn]
    simp [fupd_apply]
  refine ⟨?_, ?_, ?_, ?_⟩
  · refine (maybeConnect_fresh s pick n _ ?_ ?_ ?_).trans ?_
    · exact hest
    · exact hatt
    · simp [fupd_apply]
    · congr 1
      exact congrArg List.length hkn
  · rw [maybeConnect_swarm]
  · rw [maybeConnect_joinTime]
    simp [fupd_apply]
  · unfold maybeConnectMorePeers
    rw [if_neg (by
      rintro ⟨-, h2⟩
      simp [fupd_apply] at h2)]
    rw [connectLoop_retry]
    simp [fupd_apply]

/-- Witness for claim C10: peer `0` joining the empty initial swarm. -/
theorem claim_C10_witness :
    ((0 : Nat) ∉ initState.swarm)
    ∧ ((addNewPeer ⟨1, 1, 1, 1, true, true⟩ (fun _ => 0) id 0 initState).att 0).length
        = min (min (⟨1, 1, 1, 1, true, true⟩ : Settings).maxPeers
            (⟨1, 1, 1, 1, true, true⟩ : Settings).halfOpenLimit) initState.swarm.length
    ∧ (addNewPeer ⟨1, 1, 1, 1, true, true⟩ (fun _ => 0) id 0 initState).swarm
        = initState.swarm ++ [0]
    ∧ (addNewPeer ⟨1, 1, 1, 1, true, true⟩ (fun _ => 0) id 0 initState).joinTime 0
        = initState.tick
    ∧ (addNewPeer ⟨1, 1, 1, 1, true, true⟩ (fun _ => 0) id 0 initState).retry 0 = [] :=
  ⟨by decide,
   claim_C10 ⟨1, 1, 1, 1, true, true⟩ (fun _ => 0) id 0 initState rfl (by decide) rfl rfl⟩

end Swarm
